import Mathlib

/-!
Optimization options of the binaryen command-line tools.

Shallow embedding of `src/tools/optimization-options.h`: the struct
`wasm::OptimizationOptions`, the handlers its constructor registers for the
optimization flags, the two queries `runningDefaultOptimizationPasses` and
`runningPasses`, and `runPasses`.

Conventions of the embedding.

* A `std::string` is a `String`, read as the sequence of its characters;
  positions count characters.
* `int` fields are `Int`.
* `std::map<std::string, std::string>` is a finite map with unique keys
  (`AList`); the iteration order of the map is not observed by this header.
* A member function that is not `const` takes the object and returns it again
  next to its result.
* `Fatal() << message` ends the process; a handler that reaches it returns the
  failure together with the object as it was at that point.
* The calls made on the `PassRunner` are recorded as a list, in program order.
-/

namespace wasm

/-! ## Strings -/

/-- Scan of `std::string::find(char)`: the index of the first `c` in `cs`,
counting from `i`; `none` stands for `std::string::npos`. -/
def findFrom (c : Char) : List Char → Nat → Option Nat
  | [], _ => none
  | x :: xs, i => if x = c then some i else findFrom c xs (i + 1)

/-- The call `s.find(c)`. -/
def find (s : String) (c : Char) : Option Nat :=
  findFrom c s.data 0

/-- The call `s.substr(pos, n)`, with `n = none` for the one-argument form
`s.substr(pos)`. It throws `std::out_of_range` (here `none`) when `pos` is
larger than the size of `s`. -/
def substr (s : String) (pos : Nat) (n : Option Nat) : Option String :=
  if pos > s.length then none
  else
    match n with
    | none => some ⟨s.data.drop pos⟩
    | some n => some ⟨(s.data.drop pos).take n⟩

/-! ## `atoi` of the C library -/

/-- The predicate `isspace` in the C locale. -/
def isspace (c : Char) : Bool :=
  c = ' ' || c = '\t' || c = '\n' || c = '\x0b' || c = '\x0c' || c = '\r'

/-- The predicate `isdigit`. -/
def isdigit (c : Char) : Bool :=
  '0'.toNat ≤ c.toNat && c.toNat ≤ '9'.toNat

/-- Value of the longest run of decimal digits at the head of `cs`, continuing
the value `acc` read so far. -/
def digitsValue : List Char → Nat → Nat
  | [], acc => acc
  | c :: cs, acc =>
    if isdigit c then digitsValue cs (10 * acc + (c.toNat - '0'.toNat)) else acc

/-- Smallest value of `long` (64 bits). -/
def LONG_MIN : Int := -(2 ^ 63)

/-- Largest value of `long` (64 bits). -/
def LONG_MAX : Int := 2 ^ 63 - 1

/-- The call `strtol(s, NULL, 10)`: white space is skipped, one sign is read,
then the digits; a value outside `long` is clamped. -/
def strtol (cs : List Char) : Int :=
  let cs := cs.dropWhile isspace
  let signed : Bool × List Char :=
    match cs with
    | '-' :: rest => (true, rest)
    | '+' :: rest => (false, rest)
    | _ => (false, cs)
  let magnitude : Int := (digitsValue signed.2 0 : Nat)
  let value : Int := if signed.1 then -magnitude else magnitude
  if value < LONG_MIN then LONG_MIN else if LONG_MAX < value then LONG_MAX else value

/-- Conversion of a `long` to `int` (32 bits, two's complement). -/
def toInt32 (x : Int) : Int :=
  (x + 2 ^ 31) % 2 ^ 32 - 2 ^ 31

/-- The call `atoi(argument.c_str())`, as glibc defines it:
`(int) strtol(nptr, NULL, 10)`. The terminating NUL of `c_str()` is neither
space, sign nor digit, so reading stops there as at any other such
character. -/
def atoi (s : String) : Int :=
  toInt32 (strtol s.data)

/-! ## The data model -/

/-- The map type of `PassOptions::arguments`. -/
abbrev Arguments := AList (fun _ : String => String)

/-- The fields of `PassOptions` (declared in `pass.h`) that this header reads
or writes. -/
structure PassOptions where
  optimizeLevel : Int
  shrinkLevel : Int
  ignoreImplicitTraps : Bool
  lowMemoryUnused : Bool
  arguments : Arguments
  features : Nat

/-- The members of the base class `ToolOptions` (declared in `tool-options.h`)
that this header uses. -/
structure ToolOptions where
  passOptions : PassOptions
  debug : Bool

/-- The struct `OptimizationOptions : public ToolOptions`, with its one member
`std::vector<std::string> passes`. -/
structure OptimizationOptions extends ToolOptions where
  passes : List String

/-- The constant `OptimizationOptions::DEFAULT_OPT_PASSES`. -/
def DEFAULT_OPT_PASSES : String := "O"

/-- Modelled from the spec: the class `Fatal` is declared in
`support/utilities.h`, outside this header. The statement
`Fatal() << message` is a fatal error that aborts processing immediately with
the message. The second way a handler can end the process instead of
returning is the exception `std::out_of_range` of `std::string::substr`. -/
inductive Abort where
  | Fatal (message : String)
  | out_of_range
  deriving DecidableEq, Repr

/-- Result of a handler: the object after the handler returned, or the abort
with the object as it was when the process ended. -/
abbrev Outcome := Except (Abort × OptimizationOptions) OptimizationOptions

/-- The flags registered by the constructor, one constructor per call of
`add`, in the order of the source; `pass p` is the flag `--p` that the loop
over `PassRegistry::getRegisteredNames()` registers for the pass `p`. Flags
declared with `Arguments::One` or `Arguments::N` carry their argument. -/
inductive Directive where
  | O
  | O0
  | O1
  | O2
  | O3
  | O4
  | Os
  | Oz
  | optimizeLevel (argument : String)
  | shrinkLevel (argument : String)
  | ignoreImplicitTraps
  | lowMemoryUnused
  | passArg (argument : String)
  | pass (p : String)
  deriving DecidableEq, Repr

/-- The message of the one `Fatal()` of this header. -/
def passArgMessage : String := "--pass-arg value must be in the form of KEY:VALUE"

/-- The statement `passes.push_back(entry)`. -/
def push_back (o : OptimizationOptions) (entry : String) : OptimizationOptions :=
  { o with passes := o.passes ++ [entry] }

/-- The two assignments `passOptions.optimizeLevel = optimize;
passOptions.shrinkLevel = shrink;`. -/
def setLevels (o : OptimizationOptions) (optimize shrink : Int) : OptimizationOptions :=
  { o with passOptions := { o.passOptions with optimizeLevel := optimize, shrinkLevel := shrink } }

/-- The body of the lambda registered for each flag. The member function
`PassOptions::setDefaultOptimizationOptions` is declared in `pass.h`, outside
this header, and is taken as the argument `setDefaultOptimizationOptions`. -/
def handler (setDefaultOptimizationOptions : PassOptions → PassOptions) :
    Directive → OptimizationOptions → Outcome
  | .O, o =>
    .ok (push_back { o with passOptions := setDefaultOptimizationOptions o.passOptions }
      DEFAULT_OPT_PASSES)
  | .O0, o => .ok (setLevels o 0 0)
  | .O1, o => .ok (push_back (setLevels o 1 0) DEFAULT_OPT_PASSES)
  | .O2, o => .ok (push_back (setLevels o 2 0) DEFAULT_OPT_PASSES)
  | .O3, o => .ok (push_back (setLevels o 3 0) DEFAULT_OPT_PASSES)
  | .O4, o => .ok (push_back (setLevels o 4 0) DEFAULT_OPT_PASSES)
  | .Os, o => .ok (push_back (setLevels o 2 1) DEFAULT_OPT_PASSES)
  | .Oz, o => .ok (push_back (setLevels o 2 2) DEFAULT_OPT_PASSES)
  | .optimizeLevel argument, o =>
    .ok { o with passOptions := { o.passOptions with optimizeLevel := atoi argument } }
  | .shrinkLevel argument, o =>
    .ok { o with passOptions := { o.passOptions with shrinkLevel := atoi argument } }
  | .ignoreImplicitTraps, o =>
    .ok { o with passOptions := { o.passOptions with ignoreImplicitTraps := true } }
  | .lowMemoryUnused, o =>
    .ok { o with passOptions := { o.passOptions with lowMemoryUnused := true } }
  | .passArg argument, o =>
    match find argument ':' with
    | none => .error (.Fatal passArgMessage, o)
    | some colon =>
      match substr argument 0 (some colon), substr argument (colon + 1) none with
      | some key, some value =>
        .ok { o with passOptions :=
          { o.passOptions with arguments := o.passOptions.arguments.insert key value } }
      | _, _ => .error (.out_of_range, o)
  | .pass p, o => .ok (push_back o p)

/-- Modelled from the spec: the driver `Options::parse` lives in
`support/command-line`, outside this header. Directives arrive in the order
given by the caller and each is dispatched to its handler; a handler that ends
the process ends the whole run, and the remaining directives are not
processed. -/
def parse (setDefaultOptimizationOptions : PassOptions → PassOptions) :
    List Directive → OptimizationOptions → Outcome
  | [], o => .ok o
  | d :: ds, o =>
    match handler setDefaultOptimizationOptions d o with
    | .ok o' => parse setDefaultOptimizationOptions ds o'
    | .error e => .error e

/-- Modelled from the spec: the body of
`PassOptions::setDefaultOptimizationOptions` is in `pass.h`, outside this
header. The table of level shortcuts gives, for the whole-default directive,
optimizeLevel unchanged and shrinkLevel unchanged, and names no other effect
on the options. -/
def PassOptions.setDefaultOptimizationOptions (options : PassOptions) : PassOptions :=
  options

/-- The object right after the constructor ran: the base class is initialised
by `ToolOptions(command, description)` and `passes` is an empty vector. -/
def OptimizationOptions.construct (base : ToolOptions) : OptimizationOptions :=
  { base with passes := [] }

/-! ## Queries -/

/-- The loop of `runningDefaultOptimizationPasses`: it returns `true` at the
first element equal to `DEFAULT_OPT_PASSES` and `false` when the vector is
exhausted. -/
def runningDefaultOptimizationPassesLoop : List String → Bool
  | [] => false
  | pass :: rest =>
    if pass == DEFAULT_OPT_PASSES then true else runningDefaultOptimizationPassesLoop rest

/-- The member function `runningDefaultOptimizationPasses()`. -/
def runningDefaultOptimizationPasses (o : OptimizationOptions) : Bool × OptimizationOptions :=
  (runningDefaultOptimizationPassesLoop o.passes, o)

/-- The member function `runningPasses()`: `passes.size() > 0`. -/
def runningPasses (o : OptimizationOptions) : Bool × OptimizationOptions :=
  (decide (o.passes.length > 0), o)

/-! ## Running the passes -/

/-- A call made on the `PassRunner` by `runPasses`. -/
inductive RunnerCall where
  /-- The constructor `PassRunner passRunner(&wasm, passOptions)`. -/
  | construct (options : PassOptions)
  | setDebug (debug : Bool)
  | setFeatures (features : Nat)
  | addDefaultOptimizationPasses
  | add (pass : String)
  | run

/-- The body of the loop of `runPasses` for one element of `passes`: the call
it appends to the calls made so far. -/
def runPassesStep (calls : List RunnerCall) (pass : String) : List RunnerCall :=
  if pass == DEFAULT_OPT_PASSES then
    calls ++ [RunnerCall.addDefaultOptimizationPasses]
  else
    calls ++ [RunnerCall.add pass]

/-- The member function `runPasses(Module& wasm)`: the object afterwards and
the calls made on the `PassRunner`, in order. The module is only handed to
the runner. -/
def runPasses (o : OptimizationOptions) : OptimizationOptions × List RunnerCall :=
  let calls := [RunnerCall.construct o.passOptions]
  let calls := if o.debug then calls ++ [RunnerCall.setDebug true] else calls
  let calls := calls ++ [RunnerCall.setFeatures o.passOptions.features]
  let calls := o.passes.foldl runPassesStep calls
  (o, calls ++ [RunnerCall.run])

/-! ## Observations used by the statements -/

/-- The object an outcome ends with: the returned one, or the one at the
moment the process ended. -/
def Outcome.state : Outcome → OptimizationOptions
  | .ok o => o
  | .error e => e.2

/-- What the specification says a directive contributes to the selection
sequence: one Default entry for the whole-default directive and for every
shortcut other than level 0, one Named entry for a catalog pass (stored as
the identifier itself), nothing for any other directive. -/
def specEntries : Directive → List String
  | .O => [DEFAULT_OPT_PASSES]
  | .O1 => [DEFAULT_OPT_PASSES]
  | .O2 => [DEFAULT_OPT_PASSES]
  | .O3 => [DEFAULT_OPT_PASSES]
  | .O4 => [DEFAULT_OPT_PASSES]
  | .Os => [DEFAULT_OPT_PASSES]
  | .Oz => [DEFAULT_OPT_PASSES]
  | .pass p => [p]
  | _ => []

/-- A directive is well formed unless it is a pass-argument directive whose
argument has no delimiter. -/
def wellFormed : Directive → Bool
  | .passArg argument => decide (':' ∈ argument.data)
  | _ => true

/-- The bindings a map holds for one key, in the order the map stores them. -/
def bindingsOf (m : Arguments) (key : String) : List (Sigma fun _ : String => String) :=
  m.entries.filter fun e => decide (e.1 = key)

/-- What the specification asks the engine to enqueue for one entry of the
selection sequence: the default pipeline for a Default entry, the pass of
that identifier for a Named entry. -/
def specEnqueue (entry : String) : RunnerCall :=
  if entry = DEFAULT_OPT_PASSES then RunnerCall.addDefaultOptimizationPasses
  else RunnerCall.add entry

/-- The calls that enqueue something. -/
def RunnerCall.isEnqueue : RunnerCall → Bool
  | .addDefaultOptimizationPasses => true
  | .add _ => true
  | _ => false

/-- The calls that trigger a run. -/
def RunnerCall.isRun : RunnerCall → Bool
  | .run => true
  | _ => false

/-- The calls that configure the runner after its construction. -/
def RunnerCall.isSetup : RunnerCall → Bool
  | .setDebug _ => true
  | .setFeatures _ => true
  | _ => false

/-- The seven level shortcuts of the table: -O0 to -O4, -Os and -Oz. -/
def isShortcut : Directive → Bool
  | .O0 => true
  | .O1 => true
  | .O2 => true
  | .O3 => true
  | .O4 => true
  | .Os => true
  | .Oz => true
  | _ => false

/-- The pair (optimizeLevel, shrinkLevel) the specification's table gives for
a level shortcut. -/
def specLevels : Directive → Int × Int
  | .O1 => (1, 0)
  | .O2 => (2, 0)
  | .O3 => (3, 0)
  | .O4 => (4, 0)
  | .Os => (2, 1)
  | .Oz => (2, 2)
  | _ => (0, 0)

/-- A directive whose numeric argument, if it has one, is read by `atoi` as
a number that is not negative. -/
def nonNegativeArgument : Directive → Bool
  | .optimizeLevel argument => decide (0 ≤ atoi argument)
  | .shrinkLevel argument => decide (0 ≤ atoi argument)
  | _ => true

/-- What is left of a numeric argument once `atoi` has skipped the white
space and one sign. -/
def afterSpaceAndSign (argument : String) : List Char :=
  match argument.data.dropWhile isspace with
  | '-' :: rest => rest
  | '+' :: rest => rest
  | cs => cs

/-! ## The table of flags -/

/-- The values of the enum `Options::Arguments` that this header uses. -/
inductive Arity where
  | Zero
  | One
  | N
  deriving DecidableEq, Repr

/-- One call of `add`: the long name, the short name (an empty string where
the source passes `""`), the number of arguments and the action, which maps
the argument of the flag to the handler that runs. The description text is
left out. -/
structure Registration where
  longName : String
  shortName : String
  arguments : Arity
  action : String → Directive

/-- The thirteen calls of `add` chained in the constructor, in the order of
the source. -/
def fixedRegistrations : List Registration :=
  [ ⟨"", "-O", .Zero, fun _ => .O⟩,
    ⟨"", "-O0", .Zero, fun _ => .O0⟩,
    ⟨"", "-O1", .Zero, fun _ => .O1⟩,
    ⟨"", "-O2", .Zero, fun _ => .O2⟩,
    ⟨"", "-O3", .Zero, fun _ => .O3⟩,
    ⟨"", "-O4", .Zero, fun _ => .O4⟩,
    ⟨"", "-Os", .Zero, fun _ => .Os⟩,
    ⟨"", "-Oz", .Zero, fun _ => .Oz⟩,
    ⟨"--optimize-level", "-ol", .One, fun argument => .optimizeLevel argument⟩,
    ⟨"--shrink-level", "-s", .One, fun argument => .shrinkLevel argument⟩,
    ⟨"--ignore-implicit-traps", "-iit", .Zero, fun _ => .ignoreImplicitTraps⟩,
    ⟨"--low-memory-unused", "-lmu", .Zero, fun _ => .lowMemoryUnused⟩,
    ⟨"--pass-arg", "-pa", .N, fun argument => .passArg argument⟩ ]

/-- The call of `add` in the body of the loop over the registered names:
the long name is `std::string("--") + p`, the short name is empty. -/
def passRegistration (p : String) : Registration :=
  ⟨"--" ++ p, "", .Zero, fun _ => .pass p⟩

/-- All calls of `add` the constructor makes for the registered names
`registeredNames`, in program order: the chained ones, then one per name. -/
def registrations (registeredNames : List String) : List Registration :=
  fixedRegistrations ++ registeredNames.map passRegistration

/-- A registration answers to a name when it is its long or its short
name. -/
def Registration.answers (name : String) (r : Registration) : Bool :=
  decide (r.longName = name) || decide (r.shortName = name)

/-- A name is taken in a table when it is not empty and some registration of
the table answers to it; the empty string is how the source writes "no name"
and is never taken. -/
def nameTaken (table : List Registration) (name : String) : Bool :=
  decide (name ≠ "") && table.any (Registration.answers name)

/-- Modelled from the spec: the member function `Options::add` is defined in
`support/command-line`, outside this header. Each directive maps to exactly
one handler, and the table must reject attempts to register duplicate
directive names with a fatal construction-time error, here `none`; otherwise
the registration is appended to the table. -/
def Options.add (table : List Registration) (r : Registration) :
    Option (List Registration) :=
  if nameTaken table r.longName || nameTaken table r.shortName then none
  else some (table ++ [r])

/-- The table the constructor of `OptimizationOptions` builds for the
registered names, or `none` when one of its calls of `add` is fatal. The
options the base class registers are outside this header and not part of
it. -/
def OptimizationOptions.table (registeredNames : List String) :
    Option (List Registration) :=
  (registrations registeredNames).foldlM Options.add []

/-- The handlers a table built for the catalog can run: every fixed one, and
`pass p` for the identifiers `p` of the catalog only. -/
def registered (catalog : List String) : Directive → Bool
  | .pass p => decide (p ∈ catalog)
  | _ => true

/-! ## Facts about the string primitives -/

/-- What the scan of `find` returns: `npos` when the character does not occur;
otherwise the offset `k` of its first occurrence, with no occurrence among the
`k` characters before it. -/
theorem findFrom_spec (c : Char) (cs : List Char) (i : Nat) :
    (c ∉ cs → findFrom c cs i = none) ∧
    (c ∈ cs → ∃ k, findFrom c cs i = some (i + k) ∧ k < cs.length ∧
      c ∉ cs.take k ∧ cs = cs.take k ++ c :: cs.drop (k + 1)) := by
  induction cs generalizing i with
  | nil => simp [findFrom]
  | cons x xs ih =>
    by_cases hx : x = c
    · subst hx
      refine ⟨fun h => absurd (List.mem_cons_self _ _) h, fun _ => ⟨0, ?_⟩⟩
      simp [findFrom]
    · have hcx : ¬ c = x := fun h => hx h.symm
      refine ⟨fun h => ?_, fun h => ?_⟩
      · have hxs : c ∉ xs := fun hm => h (List.mem_cons_of_mem _ hm)
        simp [findFrom, hx, (ih (i + 1)).1 hxs]
      · have hxs : c ∈ xs := by
          rcases List.mem_cons.1 h with h | h
          · exact absurd h hcx
          · exact h
        obtain ⟨k, hk, hlt, hnot, hsplit⟩ := (ih (i + 1)).2 hxs
        refine ⟨k + 1, ?_, ?_, ?_, ?_⟩
        · simp [findFrom, hx, hk]; omega
        · simpa using hlt
        · simp [List.take_succ_cons, hcx, hnot]
        · simp only [List.take_succ_cons, List.drop_succ_cons, List.cons_append]
          exact congrArg _ hsplit

/-- The handler of `--pass-arg` on an argument with a delimiter: neither the
`Fatal()` nor the exception of `substr` is reached, and the map is assigned at
the key before the first delimiter the value after it. -/
theorem handler_passArg_of_mem (sdo : PassOptions → PassOptions) (argument : String)
    (o : OptimizationOptions) (h : ':' ∈ argument.data) :
    ∃ key value : String, argument = key ++ ":" ++ value ∧ ':' ∉ key.data ∧
      handler sdo (.passArg argument) o =
        .ok { o with passOptions :=
          { o.passOptions with arguments := o.passOptions.arguments.insert key value } } := by
  obtain ⟨k, hk, hlt, hnot, hsplit⟩ := (findFrom_spec ':' argument.data 0).2 h
  refine ⟨⟨argument.data.take k⟩, ⟨argument.data.drop (k + 1)⟩, ?_, hnot, ?_⟩
  · apply String.ext
    simp only [String.data_append]
    rw [List.append_assoc]
    exact hsplit
  · have h1 : ¬ (k + 1 > argument.length) := by
      have : argument.length = argument.data.length := rfl
      omega
    simp only [Nat.zero_add] at hk
    simp [handler, find, hk, substr, h1]

/-- The handler of `--pass-arg` on an argument without a delimiter reaches the
`Fatal()` before anything is written. -/
theorem handler_passArg_of_not_mem (sdo : PassOptions → PassOptions) (argument : String)
    (o : OptimizationOptions) (h : ':' ∉ argument.data) :
    handler sdo (.passArg argument) o = .error (.Fatal passArgMessage, o) := by
  have hk := (findFrom_spec ':' argument.data 0).1 h
  simp [handler, find, hk]

/-- The selection sequence after one directive, returned or not, is the one
before it followed by what the directive contributes. -/
theorem passes_handler (sdo : PassOptions → PassOptions) (d : Directive)
    (o : OptimizationOptions) :
    (Outcome.state (handler sdo d o)).passes = o.passes ++ specEntries d := by
  cases d with
  | passArg argument =>
    by_cases h : ':' ∈ argument.data
    · obtain ⟨key, value, -, -, hok⟩ := handler_passArg_of_mem sdo argument o h
      simp [hok, Outcome.state, specEntries]
    · simp [handler_passArg_of_not_mem sdo argument o h, Outcome.state, specEntries]
  | _ => simp [handler, Outcome.state, specEntries, push_back, setLevels]

/-- A handler returns exactly on the well-formed directives. -/
theorem isOk_handler (sdo : PassOptions → PassOptions) (d : Directive)
    (o : OptimizationOptions) :
    (handler sdo d o).isOk = wellFormed d := by
  cases d with
  | passArg argument =>
    by_cases h : ':' ∈ argument.data
    · obtain ⟨key, value, -, -, hok⟩ := handler_passArg_of_mem sdo argument o h
      simp [hok, Except.isOk, Except.toBool, wellFormed, h]
    · simp [handler_passArg_of_not_mem sdo argument o h, Except.isOk, Except.toBool,
        wellFormed, h]
  | _ => simp [handler, Except.isOk, Except.toBool, wellFormed]

/-- The selection sequence at the end of a run is the one at its start
followed by the contributions of the directives processed, in order. -/
theorem passes_parse (sdo : PassOptions → PassOptions) (ds : List Directive)
    (o : OptimizationOptions) :
    (Outcome.state (parse sdo ds o)).passes =
      o.passes ++ (ds.takeWhile wellFormed).flatMap specEntries := by
  induction ds generalizing o with
  | nil => simp [parse, Outcome.state]
  | cons d ds ih =>
    have hp := passes_handler sdo d o
    have hok := isOk_handler sdo d o
    cases hd : handler sdo d o with
    | ok r =>
      rw [hd] at hp hok
      have hw : wellFormed d = true := by simpa [Except.isOk, Except.toBool] using hok.symm
      simp only [parse, hd, List.takeWhile_cons, hw, if_true, List.flatMap_cons]
      rw [ih r]
      simp only [Outcome.state] at hp
      rw [hp, List.append_assoc]
    | error e =>
      rw [hd] at hp hok
      have hw : wellFormed d = false := by simpa [Except.isOk, Except.toBool] using hok.symm
      simp only [parse, hd, List.takeWhile_cons, hw]
      simp only [Outcome.state] at hp
      have hs : specEntries d = [] := by
        cases d <;> simp_all [wellFormed, specEntries]
      simp [Outcome.state, hp, hs]

/-- A run returns exactly when every directive of it is well formed. -/
theorem isOk_parse (sdo : PassOptions → PassOptions) (ds : List Directive)
    (o : OptimizationOptions) :
    (parse sdo ds o).isOk = ds.all wellFormed := by
  induction ds generalizing o with
  | nil => simp [parse, Except.isOk, Except.toBool]
  | cons d ds ih =>
    have hok := isOk_handler sdo d o
    cases hd : handler sdo d o with
    | ok r =>
      rw [hd] at hok
      have hw : wellFormed d = true := by simpa [Except.isOk, Except.toBool] using hok.symm
      simp [parse, hd, ih r, hw]
    | error e =>
      rw [hd] at hok
      have hw : wellFormed d = false := by simpa [Except.isOk, Except.toBool] using hok.symm
      simp [parse, hd, hw, Except.isOk, Except.toBool]

/-- A run over a concatenation, when the first part returns, continues with
the second part from the object the first part returned. -/
theorem parse_append (sdo : PassOptions → PassOptions) (ds₁ ds₂ : List Directive)
    (o r : OptimizationOptions) (h : parse sdo ds₁ o = .ok r) :
    parse sdo (ds₁ ++ ds₂) o = parse sdo ds₂ r := by
  induction ds₁ generalizing o with
  | nil =>
    simp only [parse, Except.ok.injEq] at h
    simp [h]
  | cons d ds ih =>
    cases hd : handler sdo d o with
    | ok r₁ =>
      simp only [parse, hd] at h
      simp only [List.cons_append, parse, hd]
      exact ih r₁ h
    | error e => simp [parse, hd] at h

/-- After an assignment at a key the map holds exactly one binding for it. -/
theorem bindingsOf_insert (m : Arguments) (key value : String) :
    bindingsOf (m.insert key value) key = [⟨key, value⟩] := by
  have hnot : key ∉ (List.kerase key m.entries).keys :=
    List.not_mem_keys_kerase key m.nodupKeys
  have hnil : (List.kerase key m.entries).filter (fun e => decide (e.1 = key)) = [] := by
    rw [List.filter_eq_nil_iff]
    intro e he hk
    obtain ⟨k, v⟩ := e
    have hk' : k = key := by simpa using hk
    subst hk'
    exact hnot (List.mem_keys.2 ⟨v, he⟩)
  simp [bindingsOf, AList.insert_entries, List.filter_cons, hnil]

/-- The loop of `runPasses` appends one call per element, in order. -/
theorem foldl_runPassesStep (passes : List String) (calls : List RunnerCall) :
    passes.foldl runPassesStep calls = calls ++ passes.map specEnqueue := by
  induction passes generalizing calls with
  | nil => simp
  | cons pass rest ih =>
    simp only [List.foldl_cons, List.map_cons, ih]
    by_cases h : pass = DEFAULT_OPT_PASSES <;> simp [runPassesStep, specEnqueue, h]

/-- The loop of `runningDefaultOptimizationPasses` finds the marker exactly
when it is an element. -/
theorem runningDefaultOptimizationPassesLoop_iff (passes : List String) :
    runningDefaultOptimizationPassesLoop passes = true ↔ DEFAULT_OPT_PASSES ∈ passes := by
  induction passes with
  | nil => simp [runningDefaultOptimizationPassesLoop]
  | cons pass rest ih =>
    by_cases h : pass = DEFAULT_OPT_PASSES
    · simp [runningDefaultOptimizationPassesLoop, h]
    · have h' : ¬ DEFAULT_OPT_PASSES = pass := fun e => h e.symm
      simp [runningDefaultOptimizationPassesLoop, h, h', ih]

/-! ## Level shortcuts -/

/-- C1: whatever the object was before, each level shortcut returns, and the
object it returns has the two levels of the table: -O0 (0,0), -O1 (1,0),
-O2 (2,0), -O3 (3,0), -O4 (4,0), -Os (2,1), -Oz (2,2); the argument map is
the one from before. -/
theorem level_shortcuts_set_both_levels
    (sdo : PassOptions → PassOptions) (o : OptimizationOptions) :
    (∃ r, handler sdo .O0 o = .ok r ∧ r.passOptions.optimizeLevel = 0 ∧
      r.passOptions.shrinkLevel = 0 ∧ r.passOptions.arguments = o.passOptions.arguments) ∧
    (∃ r, handler sdo .O1 o = .ok r ∧ r.passOptions.optimizeLevel = 1 ∧
      r.passOptions.shrinkLevel = 0 ∧ r.passOptions.arguments = o.passOptions.arguments) ∧
    (∃ r, handler sdo .O2 o = .ok r ∧ r.passOptions.optimizeLevel = 2 ∧
      r.passOptions.shrinkLevel = 0 ∧ r.passOptions.arguments = o.passOptions.arguments) ∧
    (∃ r, handler sdo .O3 o = .ok r ∧ r.passOptions.optimizeLevel = 3 ∧
      r.passOptions.shrinkLevel = 0 ∧ r.passOptions.arguments = o.passOptions.arguments) ∧
    (∃ r, handler sdo .O4 o = .ok r ∧ r.passOptions.optimizeLevel = 4 ∧
      r.passOptions.shrinkLevel = 0 ∧ r.passOptions.arguments = o.passOptions.arguments) ∧
    (∃ r, handler sdo .Os o = .ok r ∧ r.passOptions.optimizeLevel = 2 ∧
      r.passOptions.shrinkLevel = 1 ∧ r.passOptions.arguments = o.passOptions.arguments) ∧
    (∃ r, handler sdo .Oz o = .ok r ∧ r.passOptions.optimizeLevel = 2 ∧
      r.passOptions.shrinkLevel = 2 ∧ r.passOptions.arguments = o.passOptions.arguments) := by
  refine ⟨⟨_, rfl, ?_⟩, ⟨_, rfl, ?_⟩, ⟨_, rfl, ?_⟩, ⟨_, rfl, ?_⟩, ⟨_, rfl, ?_⟩,
    ⟨_, rfl, ?_⟩, ⟨_, rfl, ?_⟩⟩ <;> simp [push_back, setLevels]

/-- C2: the whole-default directive -O returns, and the object it returns has
the selection sequence of before followed by one Default entry, whatever
`setDefaultOptimizationOptions` does; with that function as the specification
describes it, optimizeLevel and shrinkLevel are the ones of before. -/
theorem whole_default_keeps_levels_appends_default (o : OptimizationOptions) :
    (∀ sdo : PassOptions → PassOptions, ∃ r, handler sdo .O o = .ok r ∧
      r.passes = o.passes ++ [DEFAULT_OPT_PASSES] ∧ r.passOptions = sdo o.passOptions) ∧
    (∃ r, handler PassOptions.setDefaultOptimizationOptions .O o = .ok r ∧
      r.passOptions.optimizeLevel = o.passOptions.optimizeLevel ∧
      r.passOptions.shrinkLevel = o.passOptions.shrinkLevel ∧
      r.passes = o.passes ++ [DEFAULT_OPT_PASSES] ∧
      r.passes.length = o.passes.length + 1) := by
  refine ⟨fun sdo => ⟨_, rfl, ?_⟩, ⟨_, rfl, ?_⟩⟩ <;>
    simp [push_back, PassOptions.setDefaultOptimizationOptions]

/-- C3: for every selection sequence of before, -O0 leaves the sequence as
it was, and each of -O1, -O2, -O3, -O4, -Os, -Oz gives exactly that sequence
followed by one Default entry, so its length grows by one. -/
theorem shortcuts_append_default_except_O0
    (sdo : PassOptions → PassOptions) (o : OptimizationOptions) :
    (∃ r, handler sdo .O0 o = .ok r ∧ r.passes = o.passes) ∧
    (∃ r, handler sdo .O1 o = .ok r ∧ r.passes = o.passes ++ [DEFAULT_OPT_PASSES] ∧
      r.passes.length = o.passes.length + 1) ∧
    (∃ r, handler sdo .O2 o = .ok r ∧ r.passes = o.passes ++ [DEFAULT_OPT_PASSES] ∧
      r.passes.length = o.passes.length + 1) ∧
    (∃ r, handler sdo .O3 o = .ok r ∧ r.passes = o.passes ++ [DEFAULT_OPT_PASSES] ∧
      r.passes.length = o.passes.length + 1) ∧
    (∃ r, handler sdo .O4 o = .ok r ∧ r.passes = o.passes ++ [DEFAULT_OPT_PASSES] ∧
      r.passes.length = o.passes.length + 1) ∧
    (∃ r, handler sdo .Os o = .ok r ∧ r.passes = o.passes ++ [DEFAULT_OPT_PASSES] ∧
      r.passes.length = o.passes.length + 1) ∧
    (∃ r, handler sdo .Oz o = .ok r ∧ r.passes = o.passes ++ [DEFAULT_OPT_PASSES] ∧
      r.passes.length = o.passes.length + 1) := by
  refine ⟨⟨_, rfl, ?_⟩, ⟨_, rfl, ?_⟩, ⟨_, rfl, ?_⟩, ⟨_, rfl, ?_⟩, ⟨_, rfl, ?_⟩,
    ⟨_, rfl, ?_⟩, ⟨_, rfl, ?_⟩⟩ <;> simp [push_back, setLevels]

/-! ## Order of the selection sequence -/

/-- C4: from a freshly constructed object, the selection sequence at the end
of a run is the concatenation, in order, of what each processed directive
contributes (the run stops at the first pass-argument directive without a
delimiter); when all directives are well formed the run returns and the
sequence is the concatenation over the whole list. The sequence before a
directive, and before a run, is an initial segment of the sequence after
it. -/
theorem selection_sequence_mirrors_directives
    (sdo : PassOptions → PassOptions) (base : ToolOptions) (ds : List Directive) :
    (Outcome.state (parse sdo ds (OptimizationOptions.construct base))).passes =
      (ds.takeWhile wellFormed).flatMap specEntries ∧
    (ds.all wellFormed = true →
      ∃ r, parse sdo ds (OptimizationOptions.construct base) = .ok r ∧
        r.passes = ds.flatMap specEntries) ∧
    (∀ (d : Directive) (o : OptimizationOptions),
      o.passes <+: (Outcome.state (handler sdo d o)).passes) ∧
    (∀ o : OptimizationOptions, o.passes <+: (Outcome.state (parse sdo ds o)).passes) := by
  refine ⟨?_, ?_, ?_, ?_⟩
  · simp [passes_parse, OptimizationOptions.construct]
  · intro hall
    have hok := isOk_parse sdo ds (OptimizationOptions.construct base)
    have hp := passes_parse sdo ds (OptimizationOptions.construct base)
    have htw : ds.takeWhile wellFormed = ds := by
      rw [List.takeWhile_eq_self_iff]
      intro d hd
      exact (List.all_eq_true.1 hall) d hd
    cases hr : parse sdo ds (OptimizationOptions.construct base) with
    | ok r =>
      rw [hr] at hp
      refine ⟨r, rfl, ?_⟩
      simpa [Outcome.state, htw, OptimizationOptions.construct] using hp
    | error e =>
      rw [hr, hall] at hok
      simp [Except.isOk, Except.toBool] at hok
  · intro d o
    rw [passes_handler]
    exact List.prefix_append _ _
  · intro o
    rw [passes_parse]
    exact List.prefix_append _ _

/-- Witness of C4: five well-formed directives, then the same list cut short
by a malformed pass argument. -/
theorem selection_sequence_mirrors_directives_witness :
    (∃ r, parse PassOptions.setDefaultOptimizationOptions
        [.O1, .pass "dce", .O0, .passArg "a:b", .pass "dce", .O]
        (OptimizationOptions.construct ⟨⟨0, 0, false, false, ∅, 0⟩, false⟩) = .ok r ∧
      r.passes = ["O", "dce", "dce", "O"]) ∧
    (Outcome.state (parse PassOptions.setDefaultOptimizationOptions
        [.O1, .pass "dce", .passArg "ab", .pass "dce", .O]
        (OptimizationOptions.construct ⟨⟨0, 0, false, false, ∅, 0⟩, false⟩))).passes =
      ["O", "dce"] :=
  ⟨(selection_sequence_mirrors_directives PassOptions.setDefaultOptimizationOptions
      ⟨⟨0, 0, false, false, ∅, 0⟩, false⟩
      [.O1, .pass "dce", .O0, .passArg "a:b", .pass "dce", .O]).2.1 (by decide),
   (selection_sequence_mirrors_directives PassOptions.setDefaultOptimizationOptions
      ⟨⟨0, 0, false, false, ∅, 0⟩, false⟩
      [.O1, .pass "dce", .passArg "ab", .pass "dce", .O]).1⟩

/-! ## Pass arguments -/

/-- C5: when the argument contains the delimiter, the pass-argument directive
returns, and in the object it returns the argument map maps the key (the part
before the first delimiter) to the value (the part after it): that is the one
binding of the key, whatever was stored under it before, and every other key
has the value it had. Processing "opt:5" and then "opt:9" leaves exactly one
binding of opt, to "9". -/
theorem pass_argument_stores_and_overwrites
    (sdo : PassOptions → PassOptions) (argument : String) (o : OptimizationOptions)
    (h : ':' ∈ argument.data) :
    (∃ (key value : String) (r : OptimizationOptions),
      argument = key ++ ":" ++ value ∧ ':' ∉ key.data ∧
      handler sdo (.passArg argument) o = .ok r ∧
      r.passOptions.arguments.lookup key = some value ∧
      bindingsOf r.passOptions.arguments key = [⟨key, value⟩] ∧
      ∀ other : String, other ≠ key →
        r.passOptions.arguments.lookup other = o.passOptions.arguments.lookup other) ∧
    (∃ r, parse sdo [.passArg "opt:5", .passArg "opt:9"] o = .ok r ∧
      r.passOptions.arguments.lookup "opt" = some "9" ∧
      bindingsOf r.passOptions.arguments "opt" = [⟨"opt", "9"⟩] ∧
      r.passOptions.arguments = o.passOptions.arguments.insert "opt" "9") := by
  constructor
  · obtain ⟨key, value, hsplit, hkey, hok⟩ := handler_passArg_of_mem sdo argument o h
    refine ⟨key, value, _, hsplit, hkey, hok, ?_, ?_, ?_⟩
    · exact AList.lookup_insert _
    · exact bindingsOf_insert _ _ _
    · intro other hne
      exact AList.lookup_insert_ne hne
  · refine ⟨{ o with passOptions :=
      { o.passOptions with arguments := o.passOptions.arguments.insert "opt" "9" } },
      ?_, ?_, ?_, rfl⟩
    · simp [parse, handler, find, findFrom, substr, String.length, AList.insert_insert]
    · exact AList.lookup_insert _
    · exact bindingsOf_insert _ _ _

/-- Witness of C5 at the argument "opt:5". -/
theorem pass_argument_stores_and_overwrites_witness :
    ':' ∈ "opt:5".data ∧
    ∃ r, handler PassOptions.setDefaultOptimizationOptions (.passArg "opt:5")
        (OptimizationOptions.construct ⟨⟨0, 0, false, false, ∅, 0⟩, false⟩) = .ok r ∧
      r.passOptions.arguments.lookup "opt" = some "5" := by
  refine ⟨by decide, ?_⟩
  obtain ⟨⟨key, value, r, hsplit, hkey, hok, hlook, -, -⟩, -⟩ :=
    pass_argument_stores_and_overwrites PassOptions.setDefaultOptimizationOptions "opt:5"
      (OptimizationOptions.construct ⟨⟨0, 0, false, false, ∅, 0⟩, false⟩) (by decide)
  refine ⟨r, hok, ?_⟩
  have hr : handler PassOptions.setDefaultOptimizationOptions (.passArg "opt:5")
      (OptimizationOptions.construct ⟨⟨0, 0, false, false, ∅, 0⟩, false⟩) =
      .ok { OptimizationOptions.construct ⟨⟨0, 0, false, false, ∅, 0⟩, false⟩ with
        passOptions := ⟨0, 0, false, false, (∅ : Arguments).insert "opt" "5", 0⟩ } := by
    simp [handler, find, findFrom, substr, String.length, OptimizationOptions.construct]
  rw [hr] at hok
  have hr' := Except.ok.inj hok
  rw [← hr']
  exact AList.lookup_insert _

/-- C6: the pass-argument directive ends the process exactly when its
argument has no delimiter, and then it does so with the malformed-argument
error and the object exactly as it was before the directive; the directives
after it are not processed, and the object at the halt is the one the
directives before it had produced. -/
theorem pass_argument_fails_iff_no_delimiter
    (sdo : PassOptions → PassOptions) (argument : String) (o : OptimizationOptions) :
    ((∃ e, handler sdo (.passArg argument) o = .error e) ↔ ':' ∉ argument.data) ∧
    (handler sdo (.passArg argument) o = .error (.Fatal passArgMessage, o) ↔
      ':' ∉ argument.data) ∧
    (':' ∉ argument.data →
      ∀ (before rest : List Directive) (start : OptimizationOptions),
        parse sdo before start = .ok o →
        parse sdo (before ++ .passArg argument :: rest) start =
          .error (.Fatal passArgMessage, o)) := by
  by_cases h : ':' ∈ argument.data
  · obtain ⟨key, value, -, -, hok⟩ := handler_passArg_of_mem sdo argument o h
    simp [hok, h]
  · have herr := handler_passArg_of_not_mem sdo argument o h
    refine ⟨by simp [herr, h], by simp [herr, h], ?_⟩
    intro _ before rest start hbefore
    rw [parse_append sdo before _ start o hbefore]
    simp [parse, herr]

/-- Witness of C6 at the argument "noColon", after one -O2. -/
theorem pass_argument_fails_iff_no_delimiter_witness :
    parse PassOptions.setDefaultOptimizationOptions
        ([.O2] ++ .passArg "noColon" :: [.O3])
        (OptimizationOptions.construct ⟨⟨0, 0, false, false, ∅, 0⟩, false⟩) =
      .error (.Fatal passArgMessage,
        ⟨⟨⟨2, 0, false, false, ∅, 0⟩, false⟩, [DEFAULT_OPT_PASSES]⟩) :=
  (pass_argument_fails_iff_no_delimiter PassOptions.setDefaultOptimizationOptions "noColon"
    ⟨⟨⟨2, 0, false, false, ∅, 0⟩, false⟩, [DEFAULT_OPT_PASSES]⟩).2.2 (by decide) [.O2] [.O3]
    (OptimizationOptions.construct ⟨⟨0, 0, false, false, ∅, 0⟩, false⟩) rfl

/-! ## Catalog passes -/

/-- C7: for every identifier p and every object, the directive registered
for p returns, and the object it returns has the selection sequence of before
followed by the one entry p; optimizeLevel, shrinkLevel and the argument map
(indeed all the pass options) are the ones of before. -/
theorem pass_directive_appends_named
    (sdo : PassOptions → PassOptions) (p : String) (o : OptimizationOptions) :
    ∃ r, handler sdo (.pass p) o = .ok r ∧
      r.passes = o.passes ++ [p] ∧
      r.passes.length = o.passes.length + 1 ∧
      r.passOptions.optimizeLevel = o.passOptions.optimizeLevel ∧
      r.passOptions.shrinkLevel = o.passOptions.shrinkLevel ∧
      r.passOptions.arguments = o.passOptions.arguments ∧
      r.passOptions = o.passOptions :=
  ⟨_, rfl, by simp [push_back]⟩

/-! ## Queries -/

/-- C8: `runningDefaultOptimizationPasses` returns true exactly when some
entry of the selection sequence is the Default marker, `runningPasses`
returns true exactly when the sequence has at least one entry (it is the
negation of the emptiness test), and both leave the object as it was. -/
theorem queries_exact_and_read_only (o : OptimizationOptions) :
    ((runningDefaultOptimizationPasses o).1 = true ↔ DEFAULT_OPT_PASSES ∈ o.passes) ∧
    ((runningDefaultOptimizationPasses o).1 = true ↔
      ∃ entry ∈ o.passes, entry = DEFAULT_OPT_PASSES) ∧
    (runningDefaultOptimizationPasses o).2 = o ∧
    ((runningPasses o).1 = true ↔ 1 ≤ o.passes.length) ∧
    (runningPasses o).1 = !o.passes.isEmpty ∧
    (runningPasses o).2 = o := by
  refine ⟨?_, ?_, rfl, ?_, ?_, rfl⟩
  · exact runningDefaultOptimizationPassesLoop_iff o.passes
  · rw [show (runningDefaultOptimizationPasses o).1 =
      runningDefaultOptimizationPassesLoop o.passes from rfl,
      runningDefaultOptimizationPassesLoop_iff]
    simp
  · simp [runningPasses]
    omega
  · cases hp : o.passes <;> simp [runningPasses, hp]

/-- C9: `runningDefaultOptimizationPasses` is false on a freshly constructed
object; it is true on the object left by -O and by every shortcut other than
-O0, whatever the object was; and once true it is true on the object left by
any further run of directives, returned or halted. -/
theorem hasDefault_false_then_true_forever
    (sdo : PassOptions → PassOptions) (base : ToolOptions) :
    (runningDefaultOptimizationPasses (OptimizationOptions.construct base)).1 = false ∧
    (∀ t ∈ [Directive.O, .O1, .O2, .O3, .O4, .Os, .Oz], ∀ o : OptimizationOptions,
      (∃ r, handler sdo t o = .ok r) ∧
      (runningDefaultOptimizationPasses (Outcome.state (handler sdo t o))).1 = true) ∧
    (∀ (o : OptimizationOptions) (d : Directive),
      (runningDefaultOptimizationPasses o).1 = true →
      (runningDefaultOptimizationPasses (Outcome.state (handler sdo d o))).1 = true) ∧
    (∀ (o : OptimizationOptions) (ds : List Directive),
      (runningDefaultOptimizationPasses o).1 = true →
      (runningDefaultOptimizationPasses (Outcome.state (parse sdo ds o))).1 = true) ∧
    (∀ t ∈ [Directive.O, .O1, .O2, .O3, .O4, .Os, .Oz],
      ∀ (o : OptimizationOptions) (ds : List Directive),
      (runningDefaultOptimizationPasses (Outcome.state (parse sdo (t :: ds) o))).1 = true) := by
  have hiff : ∀ o : OptimizationOptions,
      (runningDefaultOptimizationPasses o).1 = true ↔ DEFAULT_OPT_PASSES ∈ o.passes :=
    fun o => runningDefaultOptimizationPassesLoop_iff o.passes
  have htrigger : ∀ t ∈ [Directive.O, .O1, .O2, .O3, .O4, .Os, .Oz],
      wellFormed t = true ∧ specEntries t = [DEFAULT_OPT_PASSES] := by
    intro t ht
    simp only [List.mem_cons, List.mem_singleton, List.not_mem_nil, or_false] at ht
    rcases ht with rfl | rfl | rfl | rfl | rfl | rfl | rfl <;> exact ⟨rfl, rfl⟩
  refine ⟨?_, ?_, ?_, ?_, ?_⟩
  · rfl
  · intro t ht o
    constructor
    · have hok := isOk_handler sdo t o
      rw [(htrigger t ht).1] at hok
      cases hd : handler sdo t o with
      | ok r => exact ⟨r, rfl⟩
      | error e => simp [hd, Except.isOk, Except.toBool] at hok
    · rw [hiff, passes_handler, (htrigger t ht).2]
      simp
  · intro o d ho
    rw [hiff] at ho ⊢
    rw [passes_handler]
    exact List.mem_append_left _ ho
  · intro o ds ho
    rw [hiff] at ho ⊢
    rw [passes_parse]
    exact List.mem_append_left _ ho
  · intro t ht o ds
    rw [hiff, passes_parse]
    simp [List.takeWhile_cons, (htrigger t ht).1, (htrigger t ht).2]

/-- Witness of C9: after -O3, then -O0, a named pass and a malformed pass
argument, the query is still true. -/
theorem hasDefault_false_then_true_forever_witness :
    (runningDefaultOptimizationPasses (Outcome.state
      (parse PassOptions.setDefaultOptimizationOptions
        [.O3, .O0, .pass "dce", .passArg "noColon", .O1]
        (OptimizationOptions.construct ⟨⟨0, 0, false, false, ∅, 0⟩, false⟩)))).1 = true :=
  (hasDefault_false_then_true_forever PassOptions.setDefaultOptimizationOptions
    ⟨⟨0, 0, false, false, ∅, 0⟩, false⟩).2.2.2.2 .O3 (by decide) _ _

/-! ## Running the passes -/

/-- C10: `runPasses` constructs the runner with the pass options, sets it up,
then makes exactly one enqueueing call per entry of the selection sequence,
in the order of the sequence (the default pipeline for a Default entry, the
pass of that identifier for any other entry, an entry that occurs several
times being enqueued as many times), and ends with the one call of `run`;
the object is left as it was. -/
theorem runPasses_replays_sequence_then_runs_once (o : OptimizationOptions) :
    (runPasses o).1 = o ∧
    (runPasses o).2 =
      [RunnerCall.construct o.passOptions] ++
        (if o.debug then [RunnerCall.setDebug true] else []) ++
        [RunnerCall.setFeatures o.passOptions.features] ++
        o.passes.map specEnqueue ++ [RunnerCall.run] ∧
    (runPasses o).2.filter RunnerCall.isEnqueue = o.passes.map specEnqueue ∧
    ((runPasses o).2.filter RunnerCall.isEnqueue).length = o.passes.length ∧
    (runPasses o).2.filter RunnerCall.isRun = [RunnerCall.run] ∧
    (runPasses o).2.getLast? = some RunnerCall.run := by
  have hcalls : (runPasses o).2 =
      [RunnerCall.construct o.passOptions] ++
        (if o.debug then [RunnerCall.setDebug true] else []) ++
        [RunnerCall.setFeatures o.passOptions.features] ++
        o.passes.map specEnqueue ++ [RunnerCall.run] := by
    simp only [runPasses, foldl_runPassesStep]
    cases o.debug <;> simp
  have henq : ∀ l : List String,
      (l.map specEnqueue).filter RunnerCall.isEnqueue = l.map specEnqueue := by
    intro l
    rw [List.filter_eq_self]
    intro c hc
    obtain ⟨entry, -, rfl⟩ := List.mem_map.1 hc
    unfold specEnqueue
    split <;> rfl
  have hrun : ∀ l : List String, (l.map specEnqueue).filter RunnerCall.isRun = [] := by
    intro l
    rw [List.filter_eq_nil_iff]
    intro c hc
    obtain ⟨entry, -, rfl⟩ := List.mem_map.1 hc
    unfold specEnqueue
    split <;> simp [RunnerCall.isRun]
  have hfilter : (runPasses o).2.filter RunnerCall.isEnqueue = o.passes.map specEnqueue := by
    rw [hcalls]
    simp only [List.filter_append, henq]
    cases o.debug <;> simp [RunnerCall.isEnqueue]
  refine ⟨rfl, hcalls, hfilter, ?_, ?_, ?_⟩
  · rw [hfilter, List.length_map]
  · rw [hcalls]
    simp only [List.filter_append, hrun]
    cases o.debug <;> simp [RunnerCall.isRun]
  · rw [hcalls]
    exact List.getLast?_concat _

/-! ## Levels at execution time -/

/-- No handler writes the member `debug`. -/
theorem debug_handler (sdo : PassOptions → PassOptions) (d : Directive)
    (o : OptimizationOptions) :
    (Outcome.state (handler sdo d o)).debug = o.debug := by
  cases d with
  | passArg argument =>
    by_cases h : ':' ∈ argument.data
    · obtain ⟨key, value, -, -, hok⟩ := handler_passArg_of_mem sdo argument o h
      simp [hok, Outcome.state]
    · simp [handler_passArg_of_not_mem sdo argument o h, Outcome.state]
  | _ => simp [handler, Outcome.state, push_back, setLevels]

/-- No run of directives writes the member `debug`. -/
theorem debug_parse (sdo : PassOptions → PassOptions) (ds : List Directive)
    (o : OptimizationOptions) :
    (Outcome.state (parse sdo ds o)).debug = o.debug := by
  induction ds generalizing o with
  | nil => simp [parse, Outcome.state]
  | cons d ds ih =>
    have hd := debug_handler sdo d o
    cases hh : handler sdo d o with
    | ok r =>
      rw [hh] at hd
      simp only [parse, hh]
      rw [ih r]
      exact hd
    | error e =>
      rw [hh] at hd
      simpa [parse, hh] using hd

/-- The calls of `runPasses`, written out. -/
theorem runPasses_calls (o : OptimizationOptions) :
    (runPasses o).2 =
      RunnerCall.construct o.passOptions ::
        ((if o.debug then [RunnerCall.setDebug true] else []) ++
          RunnerCall.setFeatures o.passOptions.features ::
            (o.passes.map specEnqueue ++ [RunnerCall.run])) := by
  simp only [runPasses, foldl_runPassesStep]
  cases o.debug <;> simp

/-- The enqueueing calls and the run among the calls of `runPasses`. -/
theorem runPasses_enqueue_run (o : OptimizationOptions) :
    (runPasses o).2.filter (fun c => c.isEnqueue || c.isRun) =
      o.passes.map specEnqueue ++ [RunnerCall.run] := by
  have hkeep : ∀ l : List String,
      (l.map specEnqueue).filter (fun c => c.isEnqueue || c.isRun) = l.map specEnqueue := by
    intro l
    rw [List.filter_eq_self]
    intro c hc
    obtain ⟨entry, -, rfl⟩ := List.mem_map.1 hc
    unfold specEnqueue
    split <;> rfl
  have hsetup : ∀ b : Bool,
      (RunnerCall.construct o.passOptions ::
        ((if b then [RunnerCall.setDebug true] else []) ++
          [RunnerCall.setFeatures o.passOptions.features])).filter
        (fun c => c.isEnqueue || c.isRun) = [] := by
    intro b
    cases b <;> rfl
  have hsplit : (runPasses o).2 =
      (RunnerCall.construct o.passOptions ::
        ((if o.debug then [RunnerCall.setDebug true] else []) ++
          [RunnerCall.setFeatures o.passOptions.features])) ++
        (o.passes.map specEnqueue ++ [RunnerCall.run]) := by
    rw [runPasses_calls]
    simp
  rw [hsplit, List.filter_append, hsetup, List.filter_append, hkeep]
  rfl

/-- C11: when two directive lists, processed from the same fresh object, end
with the same optimizeLevel, shrinkLevel, argument map and selection
sequence, `runPasses` constructs the runner with the same levels and argument
map, namely the ones at the time of the call, and makes the same enqueueing
calls followed by the run; the debug set-up is the same, and all calls after
the construction are the same when the features are. After -O3 then -O0 the
one Default entry is run with the levels (0,0). -/
theorem default_expansion_uses_levels_at_run
    (sdo : PassOptions → PassOptions) (base : ToolOptions) (ds₁ ds₂ : List Directive)
    (r₁ r₂ : OptimizationOptions)
    (h₁ : parse sdo ds₁ (OptimizationOptions.construct base) = .ok r₁)
    (h₂ : parse sdo ds₂ (OptimizationOptions.construct base) = .ok r₂)
    (hopt : r₁.passOptions.optimizeLevel = r₂.passOptions.optimizeLevel)
    (hshrink : r₁.passOptions.shrinkLevel = r₂.passOptions.shrinkLevel)
    (hargs : r₁.passOptions.arguments = r₂.passOptions.arguments)
    (hpasses : r₁.passes = r₂.passes) :
    (∃ po₁ po₂, (runPasses r₁).2.head? = some (RunnerCall.construct po₁) ∧
      (runPasses r₂).2.head? = some (RunnerCall.construct po₂) ∧
      po₁ = r₁.passOptions ∧ po₂ = r₂.passOptions ∧
      po₁.optimizeLevel = po₂.optimizeLevel ∧ po₁.shrinkLevel = po₂.shrinkLevel ∧
      po₁.arguments = po₂.arguments) ∧
    (runPasses r₁).2.filter (fun c => c.isEnqueue || c.isRun) =
      (runPasses r₂).2.filter (fun c => c.isEnqueue || c.isRun) ∧
    (runPasses r₁).2.filter (fun c => c.isEnqueue || c.isRun) =
      r₁.passes.map specEnqueue ++ [RunnerCall.run] ∧
    r₁.debug = r₂.debug ∧
    (r₁.passOptions.features = r₂.passOptions.features →
      (runPasses r₁).2.tail = (runPasses r₂).2.tail) ∧
    (∃ r, parse sdo [.O3, .O0] (OptimizationOptions.construct base) = .ok r ∧
      r.passes = [DEFAULT_OPT_PASSES] ∧
      r.passOptions.optimizeLevel = 0 ∧ r.passOptions.shrinkLevel = 0 ∧
      (runPasses r).2.head? = some (RunnerCall.construct r.passOptions) ∧
      (runPasses r).2.filter (fun c => c.isEnqueue || c.isRun) =
        [RunnerCall.addDefaultOptimizationPasses, RunnerCall.run]) := by
  have hd₁ := debug_parse sdo ds₁ (OptimizationOptions.construct base)
  have hd₂ := debug_parse sdo ds₂ (OptimizationOptions.construct base)
  rw [h₁] at hd₁
  rw [h₂] at hd₂
  simp only [Outcome.state] at hd₁ hd₂
  have hdebug : r₁.debug = r₂.debug := hd₁.trans hd₂.symm
  refine ⟨⟨r₁.passOptions, r₂.passOptions, ?_, ?_, rfl, rfl, hopt, hshrink, hargs⟩,
    ?_, runPasses_enqueue_run r₁, hdebug, ?_, ?_⟩
  · rw [runPasses_calls]; rfl
  · rw [runPasses_calls]; rfl
  · rw [runPasses_enqueue_run, runPasses_enqueue_run, hpasses]
  · intro hfeatures
    rw [runPasses_calls, runPasses_calls, hdebug, hfeatures, hpasses]
    rfl
  · refine ⟨_, rfl, ?_, ?_, ?_, ?_, ?_⟩
    · simp [push_back, setLevels, OptimizationOptions.construct]
    · simp [push_back, setLevels]
    · simp [push_back, setLevels]
    · rw [runPasses_calls]; rfl
    · rw [runPasses_enqueue_run]
      simp [push_back, setLevels, OptimizationOptions.construct, specEnqueue]

/-- Witness of C11: -O3 then -O0, and -O1 then -O0, both end with the levels
(0,0) and one Default entry. -/
theorem default_expansion_uses_levels_at_run_witness :
    (runPasses ⟨⟨⟨0, 0, false, false, ∅, 0⟩, false⟩, [DEFAULT_OPT_PASSES]⟩).2.filter
        (fun c => c.isEnqueue || c.isRun) =
      [DEFAULT_OPT_PASSES].map specEnqueue ++ [RunnerCall.run] :=
  (default_expansion_uses_levels_at_run PassOptions.setDefaultOptimizationOptions
    ⟨⟨7, 7, false, false, ∅, 0⟩, false⟩ [.O3, .O0] [.O1, .O0]
    ⟨⟨⟨0, 0, false, false, ∅, 0⟩, false⟩, [DEFAULT_OPT_PASSES]⟩
    ⟨⟨⟨0, 0, false, false, ∅, 0⟩, false⟩, [DEFAULT_OPT_PASSES]⟩
    rfl rfl rfl rfl rfl rfl).2.2.1

/-! ## The two numeric setters -/

/-- C13: for every argument and every object, --optimize-level returns and
leaves shrinkLevel, the argument map and the selection sequence as they were
(no Default is appended), and --shrink-level returns and leaves
optimizeLevel, the argument map and the selection sequence as they were; the
one field each of them writes is the value `atoi` reads. -/
theorem numeric_setters_write_only_their_field
    (sdo : PassOptions → PassOptions) (argument : String) (o : OptimizationOptions) :
    (∃ r, handler sdo (.optimizeLevel argument) o = .ok r ∧
      r.passOptions.optimizeLevel = atoi argument ∧
      r.passOptions.shrinkLevel = o.passOptions.shrinkLevel ∧
      r.passOptions.arguments = o.passOptions.arguments ∧
      r.passes = o.passes ∧
      r.passOptions = { o.passOptions with optimizeLevel := atoi argument } ∧
      r.debug = o.debug) ∧
    (∃ r, handler sdo (.shrinkLevel argument) o = .ok r ∧
      r.passOptions.shrinkLevel = atoi argument ∧
      r.passOptions.optimizeLevel = o.passOptions.optimizeLevel ∧
      r.passOptions.arguments = o.passOptions.arguments ∧
      r.passes = o.passes ∧
      r.passOptions = { o.passOptions with shrinkLevel := atoi argument } ∧
      r.debug = o.debug) :=
  ⟨⟨_, rfl, rfl, rfl, rfl, rfl, rfl, rfl⟩, ⟨_, rfl, rfl, rfl, rfl, rfl, rfl, rfl⟩⟩

/-! ## Sign of the levels -/

/-- One directive keeps both levels at or above zero when its numeric
argument is not read as negative and `setDefaultOptimizationOptions` leaves
no level negative. -/
theorem levels_nonneg_handler (sdo : PassOptions → PassOptions)
    (hsdo : ∀ po : PassOptions, 0 ≤ po.optimizeLevel → 0 ≤ po.shrinkLevel →
      0 ≤ (sdo po).optimizeLevel ∧ 0 ≤ (sdo po).shrinkLevel)
    (d : Directive) (o : OptimizationOptions) (hd : nonNegativeArgument d = true)
    (ho : 0 ≤ o.passOptions.optimizeLevel ∧ 0 ≤ o.passOptions.shrinkLevel) :
    0 ≤ (Outcome.state (handler sdo d o)).passOptions.optimizeLevel ∧
    0 ≤ (Outcome.state (handler sdo d o)).passOptions.shrinkLevel := by
  cases d with
  | passArg argument =>
    by_cases h : ':' ∈ argument.data
    · obtain ⟨key, value, -, -, hok⟩ := handler_passArg_of_mem sdo argument o h
      simpa [hok, Outcome.state] using ho
    · simpa [handler_passArg_of_not_mem sdo argument o h, Outcome.state] using ho
  | O => simpa [handler, Outcome.state, push_back] using hsdo o.passOptions ho.1 ho.2
  | optimizeLevel argument =>
    have ha : 0 ≤ atoi argument := by simpa [nonNegativeArgument] using hd
    exact ⟨ha, ho.2⟩
  | shrinkLevel argument =>
    have ha : 0 ≤ atoi argument := by simpa [nonNegativeArgument] using hd
    exact ⟨ho.1, ha⟩
  | _ => simp [handler, Outcome.state, push_back, setLevels, ho.1, ho.2]

/-- C12, as amended: starting from the levels (0,0), after every list of
directives in which each argument of --optimize-level and --shrink-level is
read by `atoi` as a number that is not negative, optimizeLevel and
shrinkLevel are not negative, returned or halted, provided
`setDefaultOptimizationOptions` leaves no level negative. -/
theorem levels_nonneg_without_negative_arguments
    (sdo : PassOptions → PassOptions)
    (hsdo : ∀ po : PassOptions, 0 ≤ po.optimizeLevel → 0 ≤ po.shrinkLevel →
      0 ≤ (sdo po).optimizeLevel ∧ 0 ≤ (sdo po).shrinkLevel)
    (base : ToolOptions)
    (hbase : base.passOptions.optimizeLevel = 0 ∧ base.passOptions.shrinkLevel = 0)
    (ds : List Directive) (hds : ∀ d ∈ ds, nonNegativeArgument d = true) :
    0 ≤ (Outcome.state (parse sdo ds (OptimizationOptions.construct base))).passOptions.optimizeLevel ∧
    0 ≤ (Outcome.state (parse sdo ds (OptimizationOptions.construct base))).passOptions.shrinkLevel := by
  have hgen : ∀ (ds : List Directive) (o : OptimizationOptions),
      (∀ d ∈ ds, nonNegativeArgument d = true) →
      (0 ≤ o.passOptions.optimizeLevel ∧ 0 ≤ o.passOptions.shrinkLevel) →
      0 ≤ (Outcome.state (parse sdo ds o)).passOptions.optimizeLevel ∧
      0 ≤ (Outcome.state (parse sdo ds o)).passOptions.shrinkLevel := by
    intro ds
    induction ds with
    | nil => intro o _ ho; simpa [parse, Outcome.state] using ho
    | cons d ds ih =>
      intro o hall ho
      have hstep := levels_nonneg_handler sdo hsdo d o (hall d (List.mem_cons_self _ _)) ho
      cases hh : handler sdo d o with
      | ok r =>
        rw [hh] at hstep
        simp only [parse, hh]
        exact ih r (fun d' hd' => hall d' (List.mem_cons_of_mem _ hd')) hstep
      | error e =>
        rw [hh] at hstep
        simpa [parse, hh] using hstep
  apply hgen ds _ hds
  simp [OptimizationOptions.construct, hbase.1, hbase.2]

/-- Witness of C12 as amended: a run with both setters, -O and -Oz. -/
theorem levels_nonneg_without_negative_arguments_witness :
    0 ≤ (Outcome.state (parse PassOptions.setDefaultOptimizationOptions
        [.optimizeLevel "7", .O, .shrinkLevel "x", .Oz]
        (OptimizationOptions.construct
          ⟨⟨0, 0, false, false, ∅, 0⟩, false⟩))).passOptions.optimizeLevel ∧
    0 ≤ (Outcome.state (parse PassOptions.setDefaultOptimizationOptions
        [.optimizeLevel "7", .O, .shrinkLevel "x", .Oz]
        (OptimizationOptions.construct
          ⟨⟨0, 0, false, false, ∅, 0⟩, false⟩))).passOptions.shrinkLevel :=
  levels_nonneg_without_negative_arguments PassOptions.setDefaultOptimizationOptions
    (fun _ h₁ h₂ => ⟨h₁, h₂⟩) ⟨⟨0, 0, false, false, ∅, 0⟩, false⟩ ⟨rfl, rfl⟩
    [.optimizeLevel "7", .O, .shrinkLevel "x", .Oz] (by decide)

/-- Counterexample to C12: from the levels (0,0), the one directive
--optimize-level with the argument "-1" returns with optimizeLevel = -1, and
--shrink-level with "-2" returns with shrinkLevel = -2. -/
theorem levels_negative_after_negative_argument :
    (∃ r, parse PassOptions.setDefaultOptimizationOptions [.optimizeLevel "-1"]
        (OptimizationOptions.construct ⟨⟨0, 0, false, false, ∅, 0⟩, false⟩) = .ok r ∧
      r.passOptions.optimizeLevel = -1 ∧ ¬ 0 ≤ r.passOptions.optimizeLevel) ∧
    (∃ r, parse PassOptions.setDefaultOptimizationOptions [.shrinkLevel "-2"]
        (OptimizationOptions.construct ⟨⟨0, 0, false, false, ∅, 0⟩, false⟩) = .ok r ∧
      r.passOptions.shrinkLevel = -2 ∧ ¬ 0 ≤ r.passOptions.shrinkLevel) := by
  have h₁ : atoi "-1" = -1 := by decide
  have h₂ : atoi "-2" = -2 := by decide
  refine ⟨⟨_, rfl, ?_, ?_⟩, ⟨_, rfl, ?_, ?_⟩⟩
  · exact h₁
  · show ¬ 0 ≤ atoi "-1"
    rw [h₁]; decide
  · exact h₂
  · show ¬ 0 ≤ atoi "-2"
    rw [h₂]; decide

/-! ## Content of the selection sequence -/

/-- Every action of a registration made for the catalog is a handler the
table of that catalog can run. -/
theorem registered_of_mem_registrations (catalog : List String) (r : Registration)
    (hr : r ∈ registrations catalog) (argument : String) :
    registered catalog (r.action argument) = true := by
  rcases List.mem_append.1 hr with hfixed | hpass
  · simp only [fixedRegistrations, List.mem_cons, List.mem_singleton, List.not_mem_nil,
      or_false] at hfixed
    rcases hfixed with h | h | h | h | h | h | h | h | h | h | h | h | h <;>
      subst h <;> rfl
  · obtain ⟨p, hp, rfl⟩ := List.mem_map.1 hpass
    simp [passRegistration, registered, hp]

/-- C14: after every list of directives whose handlers are in the table built
for the catalog, returned or halted, every entry of the selection sequence is
the Default marker or an identifier of the catalog, and every pass that
`runPasses` enqueues by identifier is an identifier of the catalog; the
handlers of that table are the fixed ones and one per identifier of the
catalog. -/
theorem selection_entries_come_from_catalog
    (sdo : PassOptions → PassOptions) (base : ToolOptions) (catalog : List String)
    (ds : List Directive) (hds : ∀ d ∈ ds, registered catalog d = true) :
    (∀ entry ∈ (Outcome.state (parse sdo ds (OptimizationOptions.construct base))).passes,
      entry = DEFAULT_OPT_PASSES ∨ entry ∈ catalog) ∧
    (∀ p : String,
      RunnerCall.add p ∈
        (runPasses (Outcome.state (parse sdo ds (OptimizationOptions.construct base)))).2 →
      p ∈ catalog) ∧
    (∀ r ∈ registrations catalog, ∀ argument : String,
      registered catalog (r.action argument) = true) := by
  have hentries : ∀ entry ∈
      (Outcome.state (parse sdo ds (OptimizationOptions.construct base))).passes,
      entry = DEFAULT_OPT_PASSES ∨ entry ∈ catalog := by
    intro entry hentry
    rw [passes_parse] at hentry
    simp only [OptimizationOptions.construct, List.nil_append, List.mem_flatMap] at hentry
    obtain ⟨d, hd, hmem⟩ := hentry
    have hreg := hds d ((List.takeWhile_sublist wellFormed).subset hd)
    cases d <;> simp_all [specEntries, registered]
  refine ⟨hentries, ?_, fun r hr argument => registered_of_mem_registrations catalog r hr argument⟩
  intro p hp
  rw [runPasses_calls] at hp
  have hmap : RunnerCall.add p ∈
      (Outcome.state (parse sdo ds (OptimizationOptions.construct base))).passes.map
        specEnqueue := by
    cases hdebug : (Outcome.state (parse sdo ds (OptimizationOptions.construct base))).debug <;>
      simpa [hdebug] using hp
  obtain ⟨entry, hentry, henq⟩ := List.mem_map.1 hmap
  have hp' : entry = p := by
    unfold specEnqueue at henq
    split at henq
    · cases henq
    · exact RunnerCall.add.inj henq
  rcases hentries entry hentry with hdef | hcat
  · unfold specEnqueue at henq
    rw [if_pos hdef] at henq
    cases henq
  · exact hp' ▸ hcat

/-- Witness of C14 for the catalog of dce and vacuum. -/
theorem selection_entries_come_from_catalog_witness :
    "vacuum" ∈ (Outcome.state (parse PassOptions.setDefaultOptimizationOptions
        [.O2, .pass "dce", .passArg "a:b", .pass "vacuum", .pass "dce"]
        (OptimizationOptions.construct ⟨⟨0, 0, false, false, ∅, 0⟩, false⟩))).passes ∧
    ("vacuum" = DEFAULT_OPT_PASSES ∨ "vacuum" ∈ ["dce", "vacuum"]) :=
  ⟨by decide,
   (selection_entries_come_from_catalog PassOptions.setDefaultOptimizationOptions
    ⟨⟨0, 0, false, false, ∅, 0⟩, false⟩ ["dce", "vacuum"]
    [.O2, .pass "dce", .passArg "a:b", .pass "vacuum", .pass "dce"] (by decide)).1
    "vacuum" (by decide)⟩

/-! ## Sequences of level shortcuts -/

/-- A level shortcut returns with the levels of the table. -/
theorem levels_handler_shortcut (sdo : PassOptions → PassOptions) (d : Directive)
    (o : OptimizationOptions) (hd : isShortcut d = true) :
    ∃ r, handler sdo d o = .ok r ∧
      (r.passOptions.optimizeLevel, r.passOptions.shrinkLevel) = specLevels d ∧
      r.passOptions.arguments = o.passOptions.arguments := by
  cases d <;> simp [isShortcut] at hd <;>
    exact ⟨_, rfl, by simp [push_back, setLevels, specLevels], by simp [push_back, setLevels]⟩

/-- What a list of level shortcuts contributes to the selection sequence: one
Default entry per shortcut other than -O0. -/
theorem flatMap_specEntries_shortcuts (ds : List Directive)
    (hds : ∀ d ∈ ds, isShortcut d = true) :
    ds.flatMap specEntries =
      List.replicate (ds.countP fun d => decide (d ≠ Directive.O0)) DEFAULT_OPT_PASSES := by
  induction ds with
  | nil => rfl
  | cons d ds ih =>
    have hd := hds d (List.mem_cons_self _ _)
    have ih' := ih fun d' hd' => hds d' (List.mem_cons_of_mem _ hd')
    rw [List.flatMap_cons, ih']
    cases d <;> simp [isShortcut] at hd <;>
      simp [specEntries, List.countP_cons, List.replicate_succ]

/-- C15: for every non-empty list of level shortcuts, written as a list
followed by its last shortcut, processed from a fresh object, the run
returns, the levels are the table values of the last shortcut, and the
selection sequence consists of exactly as many Default entries as there are
shortcuts other than -O0 in the list; -O1 then -O3 gives optimizeLevel 3,
shrinkLevel 0 and two Default entries. -/
theorem last_shortcut_wins_defaults_accumulate
    (sdo : PassOptions → PassOptions) (base : ToolOptions) (ds : List Directive)
    (last : Directive) (hds : ∀ d ∈ ds ++ [last], isShortcut d = true) :
    (∃ r, parse sdo (ds ++ [last]) (OptimizationOptions.construct base) = .ok r ∧
      (r.passOptions.optimizeLevel, r.passOptions.shrinkLevel) = specLevels last ∧
      r.passes = List.replicate
        ((ds ++ [last]).countP fun d => decide (d ≠ Directive.O0)) DEFAULT_OPT_PASSES ∧
      r.passes.length = (ds ++ [last]).countP fun d => decide (d ≠ Directive.O0)) ∧
    (∃ r, parse sdo [.O1, .O3] (OptimizationOptions.construct base) = .ok r ∧
      r.passOptions.optimizeLevel = 3 ∧ r.passOptions.shrinkLevel = 0 ∧
      r.passes = [DEFAULT_OPT_PASSES, DEFAULT_OPT_PASSES]) := by
  constructor
  · have hwf : (ds ++ [last]).all wellFormed = true := by
      rw [List.all_eq_true]
      intro d hd
      have := hds d hd
      cases d <;> simp_all [isShortcut, wellFormed]
    have hinit : (ds.all wellFormed) = true := by
      rw [List.all_eq_true] at hwf ⊢
      exact fun d hd => hwf d (List.mem_append_left _ hd)
    have hok := isOk_parse sdo ds (OptimizationOptions.construct base)
    rw [hinit] at hok
    cases hmid : parse sdo ds (OptimizationOptions.construct base) with
    | error e => simp [hmid, Except.isOk, Except.toBool] at hok
    | ok mid =>
      obtain ⟨r, hr, hlevels, -⟩ := levels_handler_shortcut sdo last mid
        (hds last (List.mem_append_right _ (List.mem_singleton_self _)))
      have hrun : parse sdo (ds ++ [last]) (OptimizationOptions.construct base) = .ok r := by
        rw [parse_append sdo ds [last] _ mid hmid]
        simp [parse, hr]
      have hpasses := passes_parse sdo (ds ++ [last]) (OptimizationOptions.construct base)
      have htw : (ds ++ [last]).takeWhile wellFormed = ds ++ [last] := by
        rw [List.takeWhile_eq_self_iff]
        exact fun d hd => (List.all_eq_true.1 hwf) d hd
      rw [hrun, htw, flatMap_specEntries_shortcuts _ hds] at hpasses
      simp only [Outcome.state, OptimizationOptions.construct, List.nil_append] at hpasses
      refine ⟨r, hrun, hlevels, hpasses, ?_⟩
      rw [hpasses, List.length_replicate]
  · exact ⟨_, rfl, by simp [push_back, setLevels], by simp [push_back, setLevels],
      by simp [push_back, setLevels, OptimizationOptions.construct]⟩

/-- Witness of C15 at the list -Os, -O0, -O1, -O3. -/
theorem last_shortcut_wins_defaults_accumulate_witness :
    ∃ r, parse PassOptions.setDefaultOptimizationOptions
        ([Directive.Os, .O0, .O1] ++ [Directive.O3])
        (OptimizationOptions.construct ⟨⟨0, 0, false, false, ∅, 0⟩, false⟩) = .ok r ∧
      (r.passOptions.optimizeLevel, r.passOptions.shrinkLevel) = specLevels .O3 ∧
      r.passes = List.replicate
        (([Directive.Os, .O0, .O1] ++ [Directive.O3]).countP
          fun d => decide (d ≠ Directive.O0))
        DEFAULT_OPT_PASSES ∧
      r.passes.length =
        ([Directive.Os, .O0, .O1] ++ [Directive.O3]).countP
          fun d => decide (d ≠ Directive.O0) :=
  (last_shortcut_wins_defaults_accumulate PassOptions.setDefaultOptimizationOptions
    ⟨⟨0, 0, false, false, ∅, 0⟩, false⟩ [.Os, .O0, .O1] .O3 (by decide)).1

/-- C16: for every object, processing -O2 twice in a row returns with the
same optimizeLevel, shrinkLevel and argument map (indeed the same pass
options) as processing it once, while the selection sequence after two is
the sequence after one followed by one more Default entry, two entries more
than before. -/
theorem O2_twice_same_levels_two_defaults
    (sdo : PassOptions → PassOptions) (o : OptimizationOptions) :
    ∃ once twice, parse sdo [.O2] o = .ok once ∧ parse sdo [.O2, .O2] o = .ok twice ∧
      handler sdo .O2 once = .ok twice ∧
      twice.passOptions.optimizeLevel = once.passOptions.optimizeLevel ∧
      twice.passOptions.shrinkLevel = once.passOptions.shrinkLevel ∧
      twice.passOptions.arguments = once.passOptions.arguments ∧
      twice.passOptions = once.passOptions ∧
      once.passOptions.optimizeLevel = 2 ∧ once.passOptions.shrinkLevel = 0 ∧
      once.passes = o.passes ++ [DEFAULT_OPT_PASSES] ∧
      twice.passes = once.passes ++ [DEFAULT_OPT_PASSES] ∧
      twice.passes = o.passes ++ [DEFAULT_OPT_PASSES, DEFAULT_OPT_PASSES] ∧
      twice.passes.length = o.passes.length + 2 := by
  refine ⟨_, _, rfl, rfl, rfl, ?_⟩
  simp [push_back, setLevels]

/-! ## Named entries read back -/

/-- C18, as amended: for every identifier p other than the marker string
"O", the directive for p issued on a fresh object returns; on the object it
returns `runningDefaultOptimizationPasses` is false, and `runPasses` enqueues
exactly the named pass p and not the default pipeline. -/
theorem named_entry_read_back_unless_marker
    (sdo : PassOptions → PassOptions) (base : ToolOptions) (p : String)
    (hp : p ≠ DEFAULT_OPT_PASSES) :
    ∃ r, handler sdo (.pass p) (OptimizationOptions.construct base) = .ok r ∧
      r.passes = [p] ∧
      (runningDefaultOptimizationPasses r).1 = false ∧
      (runPasses r).2.filter RunnerCall.isEnqueue = [RunnerCall.add p] ∧
      RunnerCall.addDefaultOptimizationPasses ∉ (runPasses r).2 := by
  have hp' : ¬ DEFAULT_OPT_PASSES = p := fun h => hp h.symm
  refine ⟨_, rfl, ?_, ?_, ?_, ?_⟩
  · simp [push_back, OptimizationOptions.construct]
  · simp [runningDefaultOptimizationPasses, runningDefaultOptimizationPassesLoop, push_back,
      OptimizationOptions.construct, hp]
  · rw [runPasses_calls]
    cases base.debug <;>
      simp [push_back, OptimizationOptions.construct, specEnqueue, hp, List.filter_cons,
        RunnerCall.isEnqueue]
  · rw [runPasses_calls]
    cases base.debug <;> simp [push_back, OptimizationOptions.construct, specEnqueue, hp]

/-- Witness of C18 as amended, at the identifier dce. -/
theorem named_entry_read_back_unless_marker_witness :
    ∃ r, handler PassOptions.setDefaultOptimizationOptions (.pass "dce")
        (OptimizationOptions.construct ⟨⟨0, 0, false, false, ∅, 0⟩, false⟩) = .ok r ∧
      r.passes = ["dce"] ∧
      (runningDefaultOptimizationPasses r).1 = false ∧
      (runPasses r).2.filter RunnerCall.isEnqueue = [RunnerCall.add "dce"] ∧
      RunnerCall.addDefaultOptimizationPasses ∉ (runPasses r).2 :=
  named_entry_read_back_unless_marker PassOptions.setDefaultOptimizationOptions
    ⟨⟨0, 0, false, false, ∅, 0⟩, false⟩ "dce" (by decide)

/-- Counterexample to C18: for the identifier "O", the directive for it
issued on a fresh object leaves the one entry "O";
`runningDefaultOptimizationPasses` is true, and `runPasses` enqueues the
default pipeline and no pass by identifier. -/
theorem named_O_read_back_as_default :
    ∃ r, handler PassOptions.setDefaultOptimizationOptions (.pass "O")
        (OptimizationOptions.construct ⟨⟨0, 0, false, false, ∅, 0⟩, false⟩) = .ok r ∧
      r.passes = ["O"] ∧
      (runningDefaultOptimizationPasses r).1 = true ∧
      (runPasses r).2.filter RunnerCall.isEnqueue =
        [RunnerCall.addDefaultOptimizationPasses] ∧
      (runPasses r).2.filter RunnerCall.isEnqueue ≠ [RunnerCall.add "O"] := by
  refine ⟨_, rfl, rfl, rfl, ?_, ?_⟩
  · rw [runPasses_calls]
    simp [push_back, OptimizationOptions.construct, specEnqueue, DEFAULT_OPT_PASSES,
      List.filter_cons, RunnerCall.isEnqueue]
  · rw [runPasses_calls]
    simp [push_back, OptimizationOptions.construct, specEnqueue, DEFAULT_OPT_PASSES,
      List.filter_cons, RunnerCall.isEnqueue]

/-! ## Reading the numeric arguments -/

/-- The character of a digit below ten is a decimal digit with that value. -/
theorem digitChar_digit (d : Nat) (hd : d < 10) :
    isdigit (Nat.digitChar d) = true ∧ (Nat.digitChar d).toNat - 48 = d := by
  interval_cases d <;> exact ⟨rfl, rfl⟩

/-- Reading one more decimal digit. -/
theorem digitsValue_cons_digit (c : Char) (cs : List Char) (acc : Nat)
    (h : isdigit c = true) :
    digitsValue (c :: cs) acc = digitsValue cs (10 * acc + (c.toNat - 48)) := by
  simp [digitsValue, h]

/-- Reading back the digits the printer of natural numbers produces for `n`
in front of `ds` is reading `ds` with `n` already read. -/
theorem digitsValue_toDigitsCore (fuel : Nat) :
    ∀ (n : Nat) (ds : List Char), n < fuel →
      digitsValue (Nat.toDigitsCore 10 fuel n ds) 0 = digitsValue ds n := by
  induction fuel with
  | zero => intro n ds h; omega
  | succ fuel ih =>
    intro n ds h
    obtain ⟨hdig, hval⟩ := digitChar_digit (n % 10) (Nat.mod_lt _ (by decide))
    unfold Nat.toDigitsCore
    by_cases h0 : n / 10 = 0
    · simp only [h0, if_true]
      rw [digitsValue_cons_digit _ _ _ hdig, hval]
      congr 1
      omega
    · simp only [h0, if_false]
      rw [ih (n / 10) _ (by omega), digitsValue_cons_digit _ _ _ hdig, hval]
      congr 1
      omega

/-- The sign and the rest that `strtol` separates, in terms of the first
character. -/
theorem signed_eq (l : List Char) :
    (match l with
      | '-' :: rest => (true, rest)
      | '+' :: rest => (false, rest)
      | _ => (false, l)) =
    (decide (l.head? = some '-'),
      match l with
      | '-' :: rest => rest
      | '+' :: rest => rest
      | cs => cs) := by
  split
  · simp
  · simp
  · rename_i h₁ h₂
    have : ¬ l.head? = some '-' := by
      intro hh
      cases l with
      | nil => simp at hh
      | cons c rest =>
        simp at hh
        exact h₁ rest (by rw [hh])
    simp [this]

/-- The value of `strtol`: the digits after white space and sign, negated
after a minus sign, clamped to `long`. -/
theorem strtol_eq (cs : List Char) :
    strtol cs =
      (let value : Int :=
        if (cs.dropWhile isspace).head? = some '-' then
          -((digitsValue (afterSpaceAndSign ⟨cs⟩) 0 : Nat) : Int)
        else ((digitsValue (afterSpaceAndSign ⟨cs⟩) 0 : Nat) : Int)
      if value < LONG_MIN then LONG_MIN else if LONG_MAX < value then LONG_MAX else value) := by
  unfold strtol afterSpaceAndSign
  simp only [signed_eq, decide_eq_true_eq]


/-- The printer of natural numbers produces a decimal digit first. -/
theorem head_toDigitsCore (fuel : Nat) :
    ∀ (n : Nat) (ds : List Char), n < fuel →
      ∃ c rest, Nat.toDigitsCore 10 fuel n ds = c :: rest ∧ isdigit c = true := by
  induction fuel with
  | zero => intro n ds h; omega
  | succ fuel ih =>
    intro n ds h
    obtain ⟨hdig, -⟩ := digitChar_digit (n % 10) (Nat.mod_lt _ (by decide))
    unfold Nat.toDigitsCore
    by_cases h0 : n / 10 = 0
    · simp only [h0, if_true]
      exact ⟨_, _, rfl, hdig⟩
    · simp only [h0, if_false]
      exact ih (n / 10) _ (by omega)

/-- A decimal digit is neither white space nor a sign. -/
theorem digit_not_space_nor_sign (c : Char) (h : isdigit c = true) :
    isspace c = false ∧ c ≠ '-' ∧ c ≠ '+' := by
  refine ⟨?_, ?_, ?_⟩
  · cases hs : isspace c
    · rfl
    · simp only [isspace, Bool.or_eq_true, decide_eq_true_eq] at hs
      rcases hs with ((((rfl | rfl) | rfl) | rfl) | rfl) | rfl <;> simp [isdigit] at h
  · rintro rfl; simp [isdigit] at h
  · rintro rfl; simp [isdigit] at h

/-- Nothing is skipped in front of an argument that starts with a digit. -/
theorem afterSpaceAndSign_of_digit (argument : String) (c : Char) (rest : List Char)
    (hdata : argument.data = c :: rest) (h : isdigit c = true) :
    afterSpaceAndSign argument = c :: rest ∧
      ¬ (argument.data.dropWhile isspace).head? = some '-' := by
  obtain ⟨hs, hm, hp⟩ := digit_not_space_nor_sign c h
  have hdrop : argument.data.dropWhile isspace = c :: rest := by
    rw [hdata]; simp [List.dropWhile, hs]
  unfold afterSpaceAndSign
  rw [hdrop]
  constructor
  · split
    · rename_i heq; cases heq; exact absurd rfl hm
    · rename_i heq; cases heq; exact absurd rfl hp
    · rfl
  · simp [hm]

/-- The function `atoi` reads the decimal representation of a natural number
below 2^31 as that number. -/
theorem atoi_toString (n : Nat) (hn : n < 2 ^ 31) : atoi (toString n) = n := by
  have hdata : (toString n).data = Nat.toDigits 10 n := rfl
  obtain ⟨c, rest, hcs, hc⟩ := head_toDigitsCore (n + 1) n [] (Nat.lt_succ_self n)
  have hcs' : (toString n).data = c :: rest := hdata.trans hcs
  obtain ⟨hafter, hsign⟩ := afterSpaceAndSign_of_digit (toString n) c rest hcs' hc
  have hval : digitsValue (afterSpaceAndSign (toString n)) 0 = n := by
    rw [hafter, ← hcs]
    exact (digitsValue_toDigitsCore (n + 1) n [] (Nat.lt_succ_self n)).trans rfl
  unfold atoi
  rw [strtol_eq]
  simp only [hsign, if_false, hval]
  unfold LONG_MIN LONG_MAX toInt32
  have h1 : ¬ ((n : Int) < -(2 ^ 63)) := by omega
  have h2 : ¬ ((2 ^ 63 - 1 : Int) < n) := by omega
  simp only [h1, h2, if_false]
  omega

/-- Without a decimal digit after white space and sign, `atoi` reads zero. -/
theorem atoi_of_no_digit (argument : String)
    (h : ∀ c ∈ (afterSpaceAndSign argument).head?, isdigit c = false) :
    atoi argument = 0 := by
  have hval : digitsValue (afterSpaceAndSign argument) 0 = 0 := by
    cases hcs : afterSpaceAndSign argument with
    | nil => rfl
    | cons c rest =>
      have hc : isdigit c = false := h c (by simp [hcs])
      simp [digitsValue, hc]
  unfold atoi
  rw [strtol_eq]
  simp only [hval]
  unfold LONG_MIN LONG_MAX toInt32
  simp

/-- C19, as amended: for every argument, --optimize-level and --shrink-level
return, with the field set to what `atoi` reads; when the argument is the
decimal representation of a natural number n below 2^31 the field becomes n;
and when the argument has no decimal digit after its white space and sign the
field becomes 0. -/
theorem numeric_setters_total_and_read_decimal
    (sdo : PassOptions → PassOptions) (argument : String) (o : OptimizationOptions)
    (n : Nat) (hn : n < 2 ^ 31) :
    (∃ r, handler sdo (.optimizeLevel argument) o = .ok r ∧
      r.passOptions.optimizeLevel = atoi argument) ∧
    (∃ r, handler sdo (.shrinkLevel argument) o = .ok r ∧
      r.passOptions.shrinkLevel = atoi argument) ∧
    (∃ r, handler sdo (.optimizeLevel (toString n)) o = .ok r ∧
      r.passOptions.optimizeLevel = n) ∧
    (∃ r, handler sdo (.shrinkLevel (toString n)) o = .ok r ∧
      r.passOptions.shrinkLevel = n) ∧
    ((∀ c ∈ (afterSpaceAndSign argument).head?, isdigit c = false) →
      (∃ r, handler sdo (.optimizeLevel argument) o = .ok r ∧
        r.passOptions.optimizeLevel = 0) ∧
      (∃ r, handler sdo (.shrinkLevel argument) o = .ok r ∧
        r.passOptions.shrinkLevel = 0)) :=
  ⟨⟨_, rfl, rfl⟩, ⟨_, rfl, rfl⟩, ⟨_, rfl, atoi_toString n hn⟩, ⟨_, rfl, atoi_toString n hn⟩,
    fun h => ⟨⟨_, rfl, atoi_of_no_digit argument h⟩, ⟨_, rfl, atoi_of_no_digit argument h⟩⟩⟩

/-- Witness of C19 as amended: the argument "abc" and the number 2147483647,
the largest below 2^31. -/
theorem numeric_setters_total_and_read_decimal_witness :
    (∃ r, handler PassOptions.setDefaultOptimizationOptions
        (.optimizeLevel (toString 2147483647))
        (OptimizationOptions.construct ⟨⟨0, 0, false, false, ∅, 0⟩, false⟩) = .ok r ∧
      r.passOptions.optimizeLevel = (2147483647 : Nat)) ∧
    (∃ r, handler PassOptions.setDefaultOptimizationOptions (.shrinkLevel "abc")
        (OptimizationOptions.construct ⟨⟨0, 0, false, false, ∅, 0⟩, false⟩) = .ok r ∧
      r.passOptions.shrinkLevel = 0) :=
  ⟨(numeric_setters_total_and_read_decimal PassOptions.setDefaultOptimizationOptions "abc"
      (OptimizationOptions.construct ⟨⟨0, 0, false, false, ∅, 0⟩, false⟩) 2147483647
      (by decide)).2.2.1,
   ((numeric_setters_total_and_read_decimal PassOptions.setDefaultOptimizationOptions "abc"
      (OptimizationOptions.construct ⟨⟨0, 0, false, false, ∅, 0⟩, false⟩) 2147483647
      (by decide)).2.2.2.2 (by decide)).2⟩

/-- Counterexample to C19: the argument "2147483648" is the decimal
representation of the natural number 2^31, and --optimize-level with it
returns with optimizeLevel = -2147483648, which is not that number. -/
theorem numeric_setter_wraps_at_two_pow_31 :
    toString (2147483648 : Nat) = "2147483648" ∧
    ∃ r, handler PassOptions.setDefaultOptimizationOptions (.optimizeLevel "2147483648")
        (OptimizationOptions.construct ⟨⟨0, 0, false, false, ∅, 0⟩, false⟩) = .ok r ∧
      r.passOptions.optimizeLevel = -2147483648 ∧
      r.passOptions.optimizeLevel ≠ (2147483648 : Nat) := by
  have h : atoi "2147483648" = -2147483648 := by decide
  refine ⟨by decide, _, rfl, h, ?_⟩
  show atoi "2147483648" ≠ _
  rw [h]
  decide

/-! ## Where the pass argument is split -/

/-- C20: for every argument containing the delimiter, the pass-argument
directive returns having assigned the map at a key the value, where the key
with ":" and the value appended is the argument, the key contains no
delimiter and is the longest initial segment of the argument without one,
and the value is all that follows the first delimiter. "a:b:c" stores the
key "a" with the value "b:c"; ":x" stores the empty key, "k:" the empty
value. -/
theorem pass_argument_splits_at_first_delimiter
    (sdo : PassOptions → PassOptions) (argument : String) (o : OptimizationOptions)
    (h : ':' ∈ argument.data) :
    (∃ key value : String,
      handler sdo (.passArg argument) o =
        .ok { o with passOptions :=
          { o.passOptions with arguments := o.passOptions.arguments.insert key value } } ∧
      key ++ ":" ++ value = argument ∧
      ':' ∉ key.data ∧
      key.data <+: argument.data ∧
      (∀ segment : List Char, segment <+: argument.data → ':' ∉ segment →
        segment.length ≤ key.data.length) ∧
      value.data = argument.data.drop (key.data.length + 1)) ∧
    handler sdo (.passArg "a:b:c") o =
      .ok { o with passOptions :=
        { o.passOptions with arguments := o.passOptions.arguments.insert "a" "b:c" } } ∧
    handler sdo (.passArg ":x") o =
      .ok { o with passOptions :=
        { o.passOptions with arguments := o.passOptions.arguments.insert "" "x" } } ∧
    handler sdo (.passArg "k:") o =
      .ok { o with passOptions :=
        { o.passOptions with arguments := o.passOptions.arguments.insert "k" "" } } := by
  refine ⟨?_, ?_, ?_, ?_⟩
  · obtain ⟨key, value, hsplit, hkey, hok⟩ := handler_passArg_of_mem sdo argument o h
    have hdata : argument.data = key.data ++ ':' :: value.data := by
      rw [hsplit]
      simp [String.data_append]
    refine ⟨key, value, hok, hsplit.symm, hkey, ?_, ?_, ?_⟩
    · rw [hdata]
      exact List.prefix_append _ _
    · rintro segment ⟨rest, hrest⟩ hnot
      rw [hdata] at hrest
      rcases List.append_eq_append_iff.1 hrest with ⟨a, ha, -⟩ | ⟨c, hc, hcolon⟩
      · rw [ha, List.length_append]
        omega
      · cases c with
        | nil => simp [hc]
        | cons x xs =>
          have hx : x = ':' := by
            have := congrArg List.head? hcolon
            simp at this
            exact this.symm
          exact absurd (by rw [hc, hx]; simp) hnot
    · rw [hdata, List.drop_append]
      rfl
  · simp [handler, find, findFrom, substr, String.length]
  · simp [handler, find, findFrom, substr, String.length]
  · simp [handler, find, findFrom, substr, String.length]

/-- Witness of C20 at the argument "a:b:c". -/
theorem pass_argument_splits_at_first_delimiter_witness :
    handler PassOptions.setDefaultOptimizationOptions (.passArg "a:b:c")
        (OptimizationOptions.construct ⟨⟨0, 0, false, false, ∅, 0⟩, false⟩) =
      .ok { OptimizationOptions.construct ⟨⟨0, 0, false, false, ∅, 0⟩, false⟩ with
        passOptions :=
          { (OptimizationOptions.construct
              ⟨⟨0, 0, false, false, ∅, 0⟩, false⟩).passOptions with
            arguments := (OptimizationOptions.construct
              ⟨⟨0, 0, false, false, ∅, 0⟩, false⟩).passOptions.arguments.insert
                "a" "b:c" } } :=
  (pass_argument_splits_at_first_delimiter PassOptions.setDefaultOptimizationOptions "a:b:c"
    (OptimizationOptions.construct ⟨⟨0, 0, false, false, ∅, 0⟩, false⟩) (by decide)).2.1

/-! ## Construction of the table of flags -/

/-- When `add` accepts a registration, neither of its names was taken, and
the registration is appended. -/
theorem add_eq_some (table : List Registration) (r : Registration)
    (table' : List Registration) (h : Options.add table r = some table') :
    nameTaken table r.longName = false ∧ nameTaken table r.shortName = false ∧
      table' = table ++ [r] := by
  unfold Options.add at h
  split at h
  · cases h
  · rename_i hfree
    simp only [Bool.or_eq_true, not_or, Bool.not_eq_true] at hfree
    exact ⟨hfree.1, hfree.2, (Option.some.inj h).symm⟩

/-- A run of calls of `add` that is not fatal appends all its registrations,
in order. -/
theorem foldlM_add_eq_some (rs : List Registration) :
    ∀ table table' : List Registration,
      rs.foldlM Options.add table = some table' → table' = table ++ rs := by
  induction rs with
  | nil =>
    intro table table' h
    simp only [List.foldlM_nil] at h
    simp [← Option.some.inj h]
  | cons r rs ih =>
    intro table table' h
    simp only [List.foldlM_cons] at h
    cases hadd : Options.add table r with
    | none => simp [hadd] at h
    | some mid =>
      simp only [hadd, Option.some_bind] at h
      obtain ⟨-, -, hmid⟩ := add_eq_some table r mid hadd
      rw [ih mid table' h, hmid]
      simp

/-- In a table where every name has at most one registration, a run of calls
of `add` that is not fatal leaves a table with the same property. -/
theorem foldlM_add_unique (rs : List Registration) :
    ∀ table table' : List Registration,
      (∀ name : String, name ≠ "" →
        (table.filter (Registration.answers name)).length ≤ 1) →
      rs.foldlM Options.add table = some table' →
      ∀ name : String, name ≠ "" →
        (table'.filter (Registration.answers name)).length ≤ 1 := by
  induction rs with
  | nil =>
    intro table table' hinv h
    simp only [List.foldlM_nil] at h
    rw [← Option.some.inj h]
    exact hinv
  | cons r rs ih =>
    intro table table' hinv h
    simp only [List.foldlM_cons] at h
    cases hadd : Options.add table r with
    | none => simp [hadd] at h
    | some mid =>
      simp only [hadd, Option.some_bind] at h
      obtain ⟨hlong, hshort, hmid⟩ := add_eq_some table r mid hadd
      refine ih mid table' ?_ h
      intro name hname
      rw [hmid, List.filter_append]
      by_cases hans : Registration.answers name r = true
      · have htaken : nameTaken table name = false := by
          simp only [Registration.answers, Bool.or_eq_true, decide_eq_true_eq] at hans
          rcases hans with h' | h'
          · rw [← h']; exact hlong
          · rw [← h']; exact hshort
        have hnone : table.filter (Registration.answers name) = [] := by
          rw [List.filter_eq_nil_iff]
          intro e he hea
          have : nameTaken table name = true := by
            simp only [nameTaken, Bool.and_eq_true, decide_eq_true_eq, List.any_eq_true]
            exact ⟨hname, e, he, hea⟩
          rw [htaken] at this
          cases this
        simp [hnone, List.filter_cons, hans]
      · have hans' : Registration.answers name r = false := by
          simpa using hans
        simp only [List.filter_cons, hans', List.filter_nil, List.append_nil,
          Bool.false_eq_true, if_false]
        exact hinv name hname

/-- The thirteen chained calls of `add` are accepted. -/
theorem foldlM_add_fixedRegistrations :
    fixedRegistrations.foldlM Options.add [] = some fixedRegistrations := by
  rfl

/-- The name of the flag of a pass is never a short name of a fixed flag, and
is not empty. -/
theorem passName_ne_short (p : String) :
    "--" ++ p ≠ "" ∧ ∀ r ∈ fixedRegistrations, r.shortName ≠ "--" ++ p := by
  have hsecond : ("--" ++ p).data[1]? = some '-' := by
    simp [String.data_append]
  constructor
  · intro h
    rw [h] at hsecond
    exact absurd hsecond (by decide)
  · have hshort : ∀ r ∈ fixedRegistrations, r.shortName.data[1]? ≠ some '-' := by
      intro r hr
      simp only [fixedRegistrations, List.mem_cons, List.mem_singleton, List.not_mem_nil,
        or_false] at hr
      rcases hr with h | h | h | h | h | h | h | h | h | h | h | h | h <;>
        subst h <;> decide
    intro r hr h
    exact hshort r hr (h ▸ hsecond)

/-- Among the fixed flags the name of the flag of a pass is taken exactly
when it is one of their long names. -/
theorem nameTaken_fixed_iff (p : String) :
    nameTaken fixedRegistrations ("--" ++ p) = true ↔
      "--" ++ p ∈ fixedRegistrations.map Registration.longName := by
  obtain ⟨hne, hshort⟩ := passName_ne_short p
  simp only [nameTaken, Bool.and_eq_true, decide_eq_true_eq, List.any_eq_true,
    Registration.answers, Bool.or_eq_true, List.mem_map]
  constructor
  · rintro ⟨-, r, hr, hlong | hs⟩
    · exact ⟨r, hr, hlong⟩
    · exact absurd hs (hshort r hr)
  · rintro ⟨r, hr, hlong⟩
    exact ⟨hne, r, hr, Or.inl hlong⟩

/-- The calls of `add` of the loop are all accepted exactly when the names
are pairwise different and none of their flags is taken in the table the
loop starts with. -/
theorem foldlM_add_passRegistrations (catalog : List String) :
    ∀ table : List Registration,
      (∃ table', (catalog.map passRegistration).foldlM Options.add table = some table') ↔
        catalog.Nodup ∧ ∀ p ∈ catalog, nameTaken table ("--" ++ p) = false := by
  induction catalog with
  | nil => intro table; simp
  | cons p rest ih =>
    intro table
    have hempty : nameTaken table (passRegistration p).shortName = false := by
      simp [nameTaken, passRegistration]
    have hstep : ∀ q : String, nameTaken (table ++ [passRegistration p]) ("--" ++ q) = false ↔
        nameTaken table ("--" ++ q) = false ∧ q ≠ p := by
      intro q
      have hq := (passName_ne_short q).1
      have hinj : "--" ++ p = "--" ++ q ↔ p = q := by
        constructor
        · intro h
          have := congrArg String.data h
          simp only [String.data_append, List.append_cancel_left_eq] at this
          exact String.ext this
        · rintro rfl; rfl
      have hshortq : ¬ ("" : String) = "--" ++ q := fun h => hq h.symm
      simp only [nameTaken, List.any_append, List.any_cons, List.any_nil, Bool.or_false,
        Registration.answers, passRegistration, Bool.and_eq_false_iff, Bool.or_eq_false_iff,
        decide_eq_false_iff_not, hq, ne_eq, not_true_eq_false, not_false_eq_true,
        decide_True, decide_False, false_or, hinj, hshortq, Bool.true_and, Bool.and_true,
        Bool.false_eq_true, or_false]
      constructor
      · rintro ⟨h₁, h₂⟩
        exact ⟨h₁, fun h => h₂ h.symm⟩
      · rintro ⟨h₁, h₂⟩
        exact ⟨h₁, fun h => h₂ h.symm⟩
    simp only [List.map_cons, List.foldlM_cons, List.nodup_cons, List.mem_cons, forall_eq_or_imp]
    constructor
    · rintro ⟨table', h⟩
      cases hadd : Options.add table (passRegistration p) with
      | none => simp [hadd] at h
      | some mid =>
        simp only [hadd, Option.some_bind] at h
        obtain ⟨hlong, -, hmid⟩ := add_eq_some table _ mid hadd
        obtain ⟨hnodup, hfree⟩ := (ih mid).1 ⟨table', h⟩
        rw [hmid] at hfree
        refine ⟨⟨fun hmem => ((hstep p).1 (hfree p hmem)).2 rfl, hnodup⟩, hlong, ?_⟩
        intro q hq
        exact ((hstep q).1 (hfree q hq)).1
    · rintro ⟨⟨hnot, hnodup⟩, hp, hfree⟩
      have hlong : nameTaken table (passRegistration p).longName = false := hp
      have hadd : Options.add table (passRegistration p) = some (table ++ [passRegistration p]) := by
        simp [Options.add, hlong, hempty]
      simp only [hadd, Option.some_bind]
      refine (ih _).2 ⟨hnodup, fun q hq => (hstep q).2 ⟨hfree q hq, ?_⟩⟩
      rintro rfl
      exact hnot hq

/-- The table of the constructor is what the loop makes of the table of the
fixed flags. -/
theorem table_eq_foldlM (catalog : List String) :
    OptimizationOptions.table catalog =
      (catalog.map passRegistration).foldlM Options.add fixedRegistrations := by
  unfold OptimizationOptions.table registrations
  rw [List.foldlM_append, foldlM_add_fixedRegistrations]
  rfl

/-- C17: with `add` rejecting a name that is already registered, the
construction of the table is fatal whenever the flag "--" followed by an
identifier of the catalog is the long name of a fixed flag, and whenever the
catalog lists an identifier twice; it succeeds exactly when neither is the
case, and then the table holds all registrations in program order and every
name has exactly one registration answering to it. -/
theorem table_rejects_duplicate_names (catalog : List String) :
    ((∃ p ∈ catalog, "--" ++ p ∈ fixedRegistrations.map Registration.longName) →
      OptimizationOptions.table catalog = none) ∧
    (¬ catalog.Nodup → OptimizationOptions.table catalog = none) ∧
    ((∃ table, OptimizationOptions.table catalog = some table) ↔
      catalog.Nodup ∧
        ∀ p ∈ catalog, "--" ++ p ∉ fixedRegistrations.map Registration.longName) ∧
    (∀ table, OptimizationOptions.table catalog = some table →
      table = registrations catalog ∧
      ∀ name : String, name ≠ "" →
        (table.filter (Registration.answers name)).length ≤ 1 ∧
        ∀ r ∈ table, Registration.answers name r = true →
          table.filter (Registration.answers name) = [r]) := by
  have hiff : (∃ table, OptimizationOptions.table catalog = some table) ↔
      catalog.Nodup ∧
        ∀ p ∈ catalog, "--" ++ p ∉ fixedRegistrations.map Registration.longName := by
    rw [table_eq_foldlM, foldlM_add_passRegistrations catalog fixedRegistrations]
    constructor
    · rintro ⟨hnodup, hfree⟩
      refine ⟨hnodup, fun p hp hmem => ?_⟩
      have := (nameTaken_fixed_iff p).2 hmem
      rw [hfree p hp] at this
      cases this
    · rintro ⟨hnodup, hfree⟩
      refine ⟨hnodup, fun p hp => ?_⟩
      cases htaken : nameTaken fixedRegistrations ("--" ++ p) with
      | false => rfl
      | true => exact absurd ((nameTaken_fixed_iff p).1 htaken) (hfree p hp)
  have hnone : ∀ {P : Prop}, (P → ¬ (catalog.Nodup ∧
      ∀ p ∈ catalog, "--" ++ p ∉ fixedRegistrations.map Registration.longName)) →
      P → OptimizationOptions.table catalog = none := by
    intro P hP h
    cases htable : OptimizationOptions.table catalog with
    | none => rfl
    | some table => exact absurd (hiff.1 ⟨table, htable⟩) (hP h)
  refine ⟨hnone ?_, hnone ?_, hiff, ?_⟩
  · rintro ⟨p, hp, hmem⟩ ⟨-, hfree⟩
    exact hfree p hp hmem
  · rintro hdup ⟨hnodup, -⟩
    exact hdup hnodup
  · intro table htable
    have hall : table = registrations catalog := by
      have := foldlM_add_eq_some (registrations catalog) [] table htable
      simpa using this
    refine ⟨hall, fun name hname => ?_⟩
    have hlen : (table.filter (Registration.answers name)).length ≤ 1 :=
      foldlM_add_unique (registrations catalog) [] table (fun _ _ => by simp) htable name hname
    refine ⟨hlen, fun r hr hans => ?_⟩
    have hmem : r ∈ table.filter (Registration.answers name) :=
      List.mem_filter.2 ⟨hr, hans⟩
    cases hl : table.filter (Registration.answers name) with
    | nil => rw [hl] at hmem; cases hmem
    | cons x xs =>
      rw [hl] at hmem hlen
      cases xs with
      | nil =>
        rw [List.mem_singleton] at hmem
        rw [hmem]
      | cons y ys => simp at hlen

/-- Witness of C17: the catalogs dce, pass-arg and dce, dce are fatal; the
catalog dce, vacuum is accepted. -/
theorem table_rejects_duplicate_names_witness :
    OptimizationOptions.table ["dce", "pass-arg"] = none ∧
    OptimizationOptions.table ["dce", "dce"] = none ∧
    ∃ table, OptimizationOptions.table ["dce", "vacuum"] = some table :=
  ⟨(table_rejects_duplicate_names ["dce", "pass-arg"]).1 ⟨"pass-arg", by decide, by decide⟩,
   (table_rejects_duplicate_names ["dce", "dce"]).2.1 (by decide),
   (table_rejects_duplicate_names ["dce", "vacuum"]).2.2.1.2 ⟨by decide, by decide⟩⟩

end wasm
